import Mathlib

/-!
# Verification of the tikwordbe core against its specification

A shallow embedding of the TypeScript sources of the `tikwordbe` service.
Strings are modelled as `List Char` (JS strings restricted to the code
points the code manipulates); machine time is modelled as `Nat`
milliseconds; the relational store and the in-memory maps are modelled as
association lists with the `Map.set`/`Map.get` semantics of JS.  Each
section names the source file it embeds.
-/

set_option maxRecDepth 4096

namespace TW

/-! ## String model (JS string operations used throughout the sources) -/

/-- JS strings as lists of characters. -/
abbrev Str := List Char

/-- Whitespace test used by `String.prototype.trim` and `\s`/`split`. -/
def isWs (c : Char) : Bool := c.isWhitespace

/-- `s.trim()`: drop leading and trailing whitespace. -/
def trimStr (s : Str) : Str :=
  ((s.dropWhile isWs).reverse.dropWhile isWs).reverse

/-- ASCII lowercasing of a single character (the fragment of JS
`toLowerCase` exercised by the code: `A`–`Z` map to `a`–`z`). -/
def lowerChar (c : Char) : Char :=
  if 65 ≤ c.toNat ∧ c.toNat ≤ 90 then Char.ofNat (c.toNat + 32) else c

/-- `s.toLowerCase()` on the ASCII fragment. -/
def lowerStr (s : Str) : Str := s.map lowerChar

/-- Helper for `splitWs`: walk the string, accumulating the current token
in reverse. -/
def splitWsAux : Str → Str → List Str
  | [], acc => [acc.reverse]
  | c :: cs, acc => if isWs c then acc.reverse :: splitWsAux cs [] else splitWsAux cs (c :: acc)

/-- `s.split(/\s+/).filter(w => w.length > 0)`: whitespace-separated
tokens of a string, empties dropped. -/
def splitWs (s : Str) : List Str :=
  (splitWsAux s []).filter (fun w => w ≠ [])

theorem mem_splitWsAux : ∀ (s acc : Str) (w : Str), w ∈ splitWsAux s acc →
    ∀ c ∈ w, (c ∈ s ∧ isWs c = false) ∨ c ∈ acc := by
  intro s
  induction s with
  | nil =>
    intro acc w hw c hc
    rcases List.mem_singleton.mp hw with rfl
    exact Or.inr (List.mem_reverse.mp hc)
  | cons c0 cs ih =>
    intro acc w hw c hc
    unfold splitWsAux at hw
    by_cases h0 : isWs c0 = true
    · rw [if_pos h0] at hw
      rcases List.mem_cons.mp hw with rfl | hw'
      · exact Or.inr (List.mem_reverse.mp hc)
      · rcases ih [] w hw' c hc with ⟨hcs, hws⟩ | hnil
        · exact Or.inl ⟨List.mem_cons_of_mem c0 hcs, hws⟩
        · cases hnil
    · rw [if_neg h0] at hw
      rcases ih (c0 :: acc) w hw c hc with ⟨hcs, hws⟩ | hacc
      · exact Or.inl ⟨List.mem_cons_of_mem c0 hcs, hws⟩
      · rcases List.mem_cons.mp hacc with rfl | hacc'
        · exact Or.inl ⟨List.mem_cons_self c cs, by simpa using h0⟩
        · exact Or.inr hacc'

theorem mem_splitWs {s : Str} {w : Str} (hw : w ∈ splitWs s) :
    ∀ c ∈ w, c ∈ s ∧ isWs c = false := by
  intro c hc
  have := mem_splitWsAux s [] w (List.mem_of_mem_filter hw) c hc
  rcases this with h | h
  · exact h
  · cases h

/-- `xs.join(' ')` over a list of strings. -/
def joinSpace : List Str → Str
  | [] => []
  | [x] => x
  | x :: xs => x ++ ' ' :: joinSpace xs

theorem toNat_ofNat_valid (n : Nat) (h : Nat.isValidChar n) :
    (Char.ofNat n).toNat = n := by
  rw [Char.ofNat, dif_pos h]
  rfl

theorem lowerChar_idem (c : Char) : lowerChar (lowerChar c) = lowerChar c := by
  unfold lowerChar
  by_cases h : 65 ≤ c.toNat ∧ c.toNat ≤ 90
  · rw [if_pos h, if_neg]
    rw [toNat_ofNat_valid (c.toNat + 32) (Or.inl (by omega))]
    omega
  · rw [if_neg h, if_neg h]

theorem lowerStr_idem (s : Str) : lowerStr (lowerStr s) = lowerStr s := by
  unfold lowerStr
  rw [List.map_map]
  exact List.map_congr_left (fun c _ => lowerChar_idem c)

/-! ## Query canonicalizer (`src/utils/normalize.ts`, `normalizeQuery`) -/

/-- `'word' | 'sentence'` discriminator of a normalized query. -/
inductive QType
  | word
  | sentence
deriving DecidableEq

/-- Return type of `normalizeQuery`. -/
structure NormalizedQuery where
  normalized : Str
  type : QType
deriving DecidableEq

/-- The punctuation class `[.,!?;:]` used for query-type detection. -/
def queryPunct : List Char := ['.', ',', '!', '?', ';', ':']

/-- `/\s/.test(s)`. -/
def hasWsChar (s : Str) : Bool := s.any isWs

/-- `/[.,!?;:]/.test(s)`. -/
def hasQueryPunct (s : Str) : Bool := s.any (fun c => c ∈ queryPunct)

/-- `normalizeQuery(query)` from `src/utils/normalize.ts`: trim, bound the
length, reject empties, lowercase, classify word vs sentence.  A thrown
`Error` is modelled as `Except.error` carrying the message. -/
def normalizeQuery (query : Str) : Except Str NormalizedQuery :=
  let trimmed := trimStr query
  if trimmed.length > 200 then
    .error "Query exceeds maximum length of 200 characters".toList
  else if trimmed.length = 0 then
    .error "Query cannot be empty".toList
  else
    let normalized := lowerStr trimmed
    let type : QType :=
      if hasWsChar normalized || hasQueryPunct normalized then .sentence else .word
    .ok ⟨normalized, type⟩

/-- C8 (counterexample): the claim says `canonicalize` fails exactly when
the input is empty or longer than 200 characters, and otherwise returns
the trimmed, lowercased input.  The raw input `" "` (one space) is
non-empty and within the length bound, yet `normalizeQuery` throws
`"Query cannot be empty"` because the length checks run on the *trimmed*
input. -/
theorem C8_counterexample :
    ([' '] : Str) ≠ [] ∧ ([' '] : Str).length ≤ 200 ∧
      normalizeQuery [' '] = .error "Query cannot be empty".toList := by
  refine ⟨by decide, by decide, ?_⟩
  rfl

/-- C8 (amended): `normalizeQuery` fails iff the *trimmed* input is empty
or longer than 200 characters; otherwise it returns the trimmed,
lowercased input, classified as `sentence` iff the canonical form
contains whitespace or one of `.,!?;:`, and as `word` otherwise. -/
theorem C8_normalizeQuery :
    ∀ q : Str,
      ((∃ e, normalizeQuery q = .error e) ↔
        (trimStr q = [] ∨ 200 < (trimStr q).length)) ∧
      (∀ r, normalizeQuery q = .ok r →
        r.normalized = lowerStr (trimStr q) ∧
        (r.type = .sentence ↔
          (hasWsChar r.normalized = true ∨ hasQueryPunct r.normalized = true))) := by
  intro q
  unfold normalizeQuery
  by_cases hlong : (trimStr q).length > 200
  · rw [if_pos hlong]
    refine ⟨⟨fun _ => Or.inr hlong, fun _ => ⟨_, rfl⟩⟩, fun r hr => by cases hr⟩
  · rw [if_neg hlong]
    by_cases hempty : (trimStr q).length = 0
    · rw [if_pos hempty]
      refine ⟨⟨fun _ => Or.inl (List.length_eq_zero.mp hempty), fun _ => ⟨_, rfl⟩⟩,
        fun r hr => by cases hr⟩
    · rw [if_neg hempty]
      constructor
      · constructor
        · rintro ⟨e, he⟩; cases he
        · rintro (h | h)
          · exact absurd (by simp [h]) hempty
          · omega
      · rintro r hr
        cases hr
        refine ⟨rfl, ?_⟩
        by_cases hk : (hasWsChar (lowerStr (trimStr q)) ||
            hasQueryPunct (lowerStr (trimStr q))) = true
        · rw [if_pos hk]
          simp only [Bool.or_eq_true] at hk
          exact ⟨fun _ => hk, fun _ => rfl⟩
        · rw [if_neg hk]
          simp only [Bool.or_eq_true] at hk
          push_neg at hk
          exact ⟨fun h => QType.noConfusion h,
            fun h => h.elim (fun x => absurd x hk.1) (fun x => absurd x hk.2)⟩

/-- C8 (witness): the amended theorem applied to the concrete query
`" Hello World "`. -/
theorem C8_normalizeQuery_witness :
    (⟨"hello world".toList, QType.sentence⟩ : NormalizedQuery).normalized =
      lowerStr (trimStr " Hello World ".toList) :=
  ((C8_normalizeQuery " Hello World ".toList).2
    ⟨"hello world".toList, QType.sentence⟩ (by rfl)).1

/-! ## Auxiliary list lemmas for trimming and infixes -/

theorem head?_dropWhile_not (p : α → Bool) :
    ∀ (l : List α) (c : α), (l.dropWhile p).head? = some c → p c = false := by
  intro l
  induction l with
  | nil => intro c h; cases h
  | cons a as ih =>
    intro c h
    by_cases hpa : p a = true
    · rw [List.dropWhile_cons_of_pos hpa] at h
      exact ih c h
    · rw [List.dropWhile_cons_of_neg hpa] at h
      cases h
      simpa using hpa

theorem head?_of_isPrefix {l t : List α} (h : t <+: l) (c : α)
    (hc : t.head? = some c) : l.head? = some c := by
  obtain ⟨r, rfl⟩ := h
  cases t with
  | nil => cases hc
  | cons x xs => cases hc; rfl

theorem infix_dropWhile_aux (p : α → Bool) {t : List α} {c : α}
    (hc : t.head? = some c) (hpc : p c = false) :
    ∀ (a b : List α), t <:+: List.dropWhile p (a ++ t ++ b) := by
  intro a
  induction a with
  | nil =>
    intro b
    cases t with
    | nil => cases hc
    | cons x xs =>
      cases hc
      rw [List.nil_append, List.cons_append,
        List.dropWhile_cons_of_neg (by simp [hpc])]
      exact ⟨[], b, rfl⟩
  | cons x a' ih =>
    intro b
    by_cases hx : p x = true
    · rw [List.cons_append, List.cons_append, List.dropWhile_cons_of_pos hx]
      exact ih b
    · rw [List.cons_append, List.cons_append, List.dropWhile_cons_of_neg hx]
      exact ⟨x :: a', b, rfl⟩

theorem infix_dropWhile_of_head (p : α → Bool) {t ys : List α} {c : α}
    (hc : t.head? = some c) (hpc : p c = false) (h : t <:+: ys) :
    t <:+: ys.dropWhile p := by
  obtain ⟨a, b, rfl⟩ := h
  exact infix_dropWhile_aux p hc hpc a b

theorem trimStr_prefix_dropWhile (s : Str) :
    trimStr s <+: List.dropWhile isWs s := by
  have h2 : (List.dropWhile isWs s).reverse.dropWhile isWs <:+
      (List.dropWhile isWs s).reverse := List.dropWhile_suffix isWs
  have h3 := List.reverse_prefix.mpr h2
  rw [List.reverse_reverse] at h3
  exact h3

theorem trimStr_infix_self (s : Str) : trimStr s <:+: s := by
  exact (trimStr_prefix_dropWhile s).isInfix.trans (List.dropWhile_suffix isWs).isInfix

theorem trimStr_head?_not_ws (s : Str) (c : Char)
    (hc : (trimStr s).head? = some c) : isWs c = false :=
  head?_dropWhile_not isWs _ c (head?_of_isPrefix (trimStr_prefix_dropWhile s) c hc)

theorem trimStr_getLast?_not_ws (s : Str) (c : Char)
    (hc : (trimStr s).getLast? = some c) : isWs c = false := by
  have : ((trimStr s).reverse).head? = some c := by
    rw [List.head?_reverse]; exact hc
  unfold trimStr at this
  rw [List.reverse_reverse] at this
  exact head?_dropWhile_not isWs _ c this

theorem trim_infix_mono {xs ys : Str} (h : xs <:+: ys) :
    trimStr xs <:+: trimStr ys := by
  cases htx : trimStr xs with
  | nil => exact List.nil_infix
  | cons c cs =>
    have hhead : (trimStr xs).head? = some c := by rw [htx]; rfl
    have hcw : isWs c = false := trimStr_head?_not_ws xs c hhead
    obtain ⟨d, hd⟩ : ∃ d, (trimStr xs).getLast? = some d := by
      rw [htx]; exact ⟨(c :: cs).getLast (by simp), List.getLast?_eq_getLast _ _⟩
    have hdw : isWs d = false := trimStr_getLast?_not_ws xs d hd
    have step0 : trimStr xs <:+: ys := (trimStr_infix_self xs).trans h
    have step1 : trimStr xs <:+: List.dropWhile isWs ys :=
      infix_dropWhile_of_head isWs hhead hcw step0
    have step2 : (trimStr xs).reverse <:+: (List.dropWhile isWs ys).reverse :=
      List.reverse_infix.mpr step1
    have hrev_head : ((trimStr xs).reverse).head? = some d := by
      rw [List.head?_reverse]; exact hd
    have step3 : (trimStr xs).reverse <:+:
        List.dropWhile isWs (List.dropWhile isWs ys).reverse :=
      infix_dropWhile_of_head isWs hrev_head hdw step2
    have step4 := List.reverse_infix.mpr step3
    rw [List.reverse_reverse] at step4
    rw [← htx]
    exact step4

theorem infix_joinSpace : ∀ (parts : List Str) (x : Str), x ∈ parts → x <:+: joinSpace parts
  | [], _, hx => absurd hx (List.not_mem_nil _)
  | [a], x, hx => by
    rcases List.mem_singleton.mp hx with rfl
    exact List.infix_refl _
  | a :: b :: rest, x, hx => by
    rcases List.mem_cons.mp hx with rfl | hx'
    · show x <:+: x ++ ' ' :: joinSpace (b :: rest)
      exact (List.prefix_append _ _).isInfix
    · have ih := infix_joinSpace (b :: rest) x hx'
      have hsuf : joinSpace (b :: rest) <:+ a ++ ' ' :: joinSpace (b :: rest) := by
        refine ⟨a ++ [' '], ?_⟩
        simp
      exact ih.trans hsuf.isInfix

/-! ## Sentence boundary detector (`src/services/sentenceDetector.ts`) -/

/-- A timed caption cue as consumed by the detector:
`{ text, start (seconds), duration (seconds) }`.  The claims here use
only the additive and order structure of times, so they are modelled as
integers. -/
structure CaptionSegment where
  text : Str
  start : Int
  duration : Int
deriving DecidableEq

/-- Return type of `detectSentenceBoundary`. -/
structure SentenceBoundary where
  startTime : Int
  endTime : Int
  caption : Str
deriving DecidableEq

/-- `/[.!?]$/.test(segment.text.trim())`: the trimmed text ends in
sentence-ending punctuation. -/
def endsWithSentencePunct (t : Str) : Bool :=
  match (trimStr t).getLast? with
  | some c => c == '.' || c == '!' || c == '?'
  | none => false

/-- Index of the first element satisfying `p`. -/
def firstIdx? (p : α → Bool) : List α → Option Nat
  | [] => none
  | a :: as => if p a then some 0 else (firstIdx? p as).map (· + 1)

theorem firstIdx?_some_lt (p : α → Bool) :
    ∀ (l : List α) (j : Nat), firstIdx? p l = some j → j < l.length := by
  intro l
  induction l with
  | nil => intro j h; cases h
  | cons a as ih =>
    intro j h
    unfold firstIdx? at h
    by_cases hpa : p a = true
    · rw [if_pos hpa] at h; cases h; simp
    · rw [if_neg hpa] at h
      cases hj : firstIdx? p as with
      | none => rw [hj] at h; cases h
      | some j' =>
        rw [hj] at h
        cases h
        have := ih j' hj
        simp only [List.length_cons]
        omega

/-- Out-of-range default used with `List.getD` (JS would read `undefined`;
the theorems only use in-range indices). -/
def defaultSeg : CaptionSegment := ⟨[], 0, 0⟩

/-- Step 1 of `detectSentenceBoundary`: scan backward from `matchIndex - 1`
for the nearest segment whose trimmed text ends in `.!?`; the sentence
starts just after it, or at 0 when none is found. -/
def findStartIndex (segments : List CaptionSegment) (matchIndex : Nat) : Nat :=
  match firstIdx? (fun s => endsWithSentencePunct s.text) (segments.take matchIndex).reverse with
  | some j => matchIndex - j
  | none => 0

/-- Step 2 of `detectSentenceBoundary`: scan forward from `matchIndex` for
the first segment whose trimmed text ends in `.!?` (inclusive); the last
segment when none is found. -/
def findEndIndex (segments : List CaptionSegment) (matchIndex : Nat) : Nat :=
  match firstIdx? (fun s => endsWithSentencePunct s.text) (segments.drop matchIndex) with
  | some j => matchIndex + j
  | none => segments.length - 1

/-- `detectSentenceBoundary(segments, matchIndex)` from
`src/services/sentenceDetector.ts`. -/
def detectSentenceBoundary (segments : List CaptionSegment) (matchIndex : Nat) :
    SentenceBoundary :=
  let startIndex := findStartIndex segments matchIndex
  let endIndex := findEndIndex segments matchIndex
  let captionParts := ((segments.drop startIndex).take (endIndex + 1 - startIndex)).map
    (fun s => s.text)
  let startSegment := segments.getD startIndex defaultSeg
  let endSegment := segments.getD endIndex defaultSeg
  { startTime := startSegment.start
    endTime := endSegment.start + endSegment.duration + 2
    caption := trimStr (joinSpace captionParts) }

theorem findStartIndex_le (segments : List CaptionSegment) (m : Nat) :
    findStartIndex segments m ≤ m := by
  unfold findStartIndex
  cases h : firstIdx? (fun s => endsWithSentencePunct s.text) (segments.take m).reverse with
  | none => exact Nat.zero_le m
  | some j => exact Nat.sub_le m j

theorem findEndIndex_bounds (segments : List CaptionSegment) (m : Nat)
    (hm : m < segments.length) :
    m ≤ findEndIndex segments m ∧ findEndIndex segments m < segments.length := by
  unfold findEndIndex
  cases h : firstIdx? (fun s => endsWithSentencePunct s.text) (segments.drop m) with
  | none => dsimp only; omega
  | some j =>
    have := firstIdx?_some_lt _ _ _ h
    rw [List.length_drop] at this
    dsimp only
    omega

/-- C5 (counterexample): the claim asserts that for *every* non-empty
caption list and valid match index the returned interval contains the
matched segment's time range and the caption contains the matched
segment's text as a substring.  With segments
`[{text: " the", start: 0, duration: 100}, {text: "end.", start: 1, duration: 0}]`
and match index 0, the detector returns `endTime = 1 + 0 + 2 = 3`, which
does not cover the matched range `[0, 100]`, and the caption
`"the end."` (trimmed) does not contain the raw text `" the"`. -/
theorem C5_counterexample :
    ¬((detectSentenceBoundary [⟨" the".toList, 0, 100⟩, ⟨"end.".toList, 1, 0⟩] 0).startTime ≤
        (⟨" the".toList, 0, 100⟩ : CaptionSegment).start ∧
      (⟨" the".toList, 0, 100⟩ : CaptionSegment).start +
          (⟨" the".toList, 0, 100⟩ : CaptionSegment).duration ≤
        (detectSentenceBoundary [⟨" the".toList, 0, 100⟩, ⟨"end.".toList, 1, 0⟩] 0).endTime) ∧
    ¬((⟨" the".toList, 0, 100⟩ : CaptionSegment).text <:+:
        (detectSentenceBoundary [⟨" the".toList, 0, 100⟩, ⟨"end.".toList, 1, 0⟩] 0).caption) := by
  decide

/-- C5 (amended): for time-ordered caption lists — start times
nondecreasing and end times (`start + duration`) nondecreasing along the
list — and any valid match index `m`, `detectSentenceBoundary` returns an
interval containing the matched segment's time range, its caption
contains the matched segment's *trimmed* text as a substring, and
`startTime`/`endTime` are exactly `segments[start].start` and
`segments[end].start + segments[end].duration + 2` for the computed
boundary indices. -/
theorem C5_boundary (segments : List CaptionSegment) (m : Nat) (hm : m < segments.length)
    (hstart : segments.Pairwise (fun a b => a.start ≤ b.start))
    (hend : segments.Pairwise (fun a b => a.start + a.duration ≤ b.start + b.duration)) :
    (detectSentenceBoundary segments m).startTime ≤ (segments.get ⟨m, hm⟩).start ∧
    (segments.get ⟨m, hm⟩).start + (segments.get ⟨m, hm⟩).duration ≤
      (detectSentenceBoundary segments m).endTime ∧
    trimStr (segments.get ⟨m, hm⟩).text <:+: (detectSentenceBoundary segments m).caption ∧
    (detectSentenceBoundary segments m).startTime =
      (segments.getD (findStartIndex segments m) defaultSeg).start ∧
    (detectSentenceBoundary segments m).endTime =
      (segments.getD (findEndIndex segments m) defaultSeg).start +
        (segments.getD (findEndIndex segments m) defaultSeg).duration + 2 := by
  have hs := findStartIndex_le segments m
  obtain ⟨he1, he2⟩ := findEndIndex_bounds segments m hm
  have hslen : findStartIndex segments m < segments.length := by omega
  refine ⟨?_, ?_, ?_, rfl, rfl⟩
  · show (segments.getD (findStartIndex segments m) defaultSeg).start ≤
      (segments.get ⟨m, hm⟩).start
    rw [List.getD_eq_getElem segments defaultSeg hslen]
    rcases Nat.eq_or_lt_of_le hs with heq | hlt
    · simp only [heq, List.get_eq_getElem]
      exact le_rfl
    · have := List.pairwise_iff_get.mp hstart ⟨findStartIndex segments m, hslen⟩
        ⟨m, hm⟩ hlt
      simpa using this
  · show (segments.get ⟨m, hm⟩).start + (segments.get ⟨m, hm⟩).duration ≤
      (segments.getD (findEndIndex segments m) defaultSeg).start +
        (segments.getD (findEndIndex segments m) defaultSeg).duration + 2
    rw [List.getD_eq_getElem segments defaultSeg he2]
    rcases Nat.eq_or_lt_of_le he1 with heq | hlt
    · simp only [← heq, List.get_eq_getElem]
      omega
    · have := List.pairwise_iff_get.mp hend ⟨m, hm⟩ ⟨findEndIndex segments m, he2⟩ hlt
      simp only [List.get_eq_getElem] at this ⊢
      omega
  · have hi1 : m - findStartIndex segments m <
        findEndIndex segments m + 1 - findStartIndex segments m := by omega
    have hi2 : m - findStartIndex segments m <
        ((segments.drop (findStartIndex segments m)).take
          (findEndIndex segments m + 1 - findStartIndex segments m)).length := by
      rw [List.length_take, List.length_drop]
      omega
    have h3 : ((segments.drop (findStartIndex segments m)).take
          (findEndIndex segments m + 1 - findStartIndex segments m)).get
          ⟨m - findStartIndex segments m, hi2⟩ = segments.get ⟨m, hm⟩ := by
      simp only [List.get_eq_getElem, List.getElem_take, List.getElem_drop]
      congr 1
      omega
    have hmem : (segments.get ⟨m, hm⟩).text ∈
        ((segments.drop (findStartIndex segments m)).take
          (findEndIndex segments m + 1 - findStartIndex segments m)).map
          (fun s => s.text) := by
      rw [← h3]
      exact List.mem_map_of_mem (fun s : CaptionSegment => s.text) (List.get_mem _ _ _)
    exact trim_infix_mono (infix_joinSpace _ _ hmem)

/-- C5 (witness): the amended theorem applied to a concrete two-segment
caption list. -/
theorem C5_boundary_witness :
    trimStr "Python is".toList <:+:
      (detectSentenceBoundary
        [⟨"Python is".toList, 0, 2⟩, ⟨"great.".toList, 2, 1⟩] 0).caption :=
  (C5_boundary [⟨"Python is".toList, 0, 2⟩, ⟨"great.".toList, 2, 1⟩] 0
    (by decide) (by decide) (by decide)).2.2.1

/-! ## English gating heuristic (`src/services/jobProcessor.ts`,
`isEnglishTranscription` and its use in `processJob`) -/

/-- The fixed list of common English function words. -/
def commonEnglishWords : List Str :=
  ["the".toList, "a".toList, "an".toList, "is".toList, "are".toList, "was".toList,
   "were".toList, "to".toList, "of".toList, "and".toList, "in".toList, "that".toList,
   "have".toList, "it".toList, "for".toList, "on".toList, "with".toList, "as".toList,
   "this".toList, "be".toList, "at".toList]

/-- `haystack.includes(needle)`: substring containment. -/
def strIncludes (haystack needle : Str) : Bool := decide (needle <:+: haystack)

/-- `allText.includes(` w `) || allText.startsWith(`w `) || allText.endsWith(` w`)`:
the word appears space-delimited somewhere in the text. -/
def appearsSpaceDelimited (allText w : Str) : Bool :=
  strIncludes allText (' ' :: (w ++ [' '])) ||
  (w ++ [' ']).isPrefixOf allText ||
  (' ' :: w).isSuffixOf allText

/-- The joined, lowercased caption text `captions.map(c => c.text).join(' ').toLowerCase()`. -/
def joinedLowerText (captions : List CaptionSegment) : Str :=
  lowerStr (joinSpace (captions.map (fun c => c.text)))

/-- Number of non-ASCII characters of the joined text
(`allText.match(/[^\x00-\x7F]/g)`). -/
def nonLatinCount (captions : List CaptionSegment) : Nat :=
  ((joinedLowerText captions).filter (fun c => 128 ≤ c.toNat)).length

/-- `isEnglishTranscription(captions)` from `src/services/jobProcessor.ts`:
accept iff at least 5 of the fixed function words appear space-delimited
in the joined lowercase text and the non-ASCII ratio is below 0.2.  The
source computes `nonLatinRatio = nonLatin ? nonLatin / length : 0` and
compares `< 0.2`; here the comparison is stated integrally:
`nonLatin = 0` (the `match` returned `null`, ratio 0) or
`5 * nonLatin < length` (equivalent to `nonLatin / length < 0.2` for a
positive count, which forces `length > 0`). -/
def isEnglishTranscription (captions : List CaptionSegment) : Bool :=
  if captions.length = 0 then false
  else
    let allText := joinedLowerText captions
    let englishWordCount :=
      (commonEnglishWords.filter (fun w => appearsSpaceDelimited allText w)).length
    let nonLatin := nonLatinCount captions
    decide (5 ≤ englishWordCount) && decide (nonLatin = 0 ∨ 5 * nonLatin < allText.length)

/-- The number of whitespace-separated tokens of the joined lowercase text
that equal some word of the fixed list — the "count of occurrences ...
counted as isolated tokens" of the claim. -/
def claimEnglishOccurrences (captions : List CaptionSegment) : Nat :=
  ((splitWs (joinedLowerText captions)).filter
    (fun t => decide (t ∈ commonEnglishWords))).length

/-- The acceptance predicate exactly as the claim words it: at least 5
token occurrences of list words, and non-ASCII ratio below 0.2. -/
def claimEnglishAccept (captions : List CaptionSegment) : Bool :=
  decide (5 ≤ claimEnglishOccurrences captions) &&
  decide (nonLatinCount captions = 0 ∨
    5 * nonLatinCount captions < (joinedLowerText captions).length)

/-- Steps 3e onward of `processJob` for one candidate video, with
everything after the English gate abstracted by the continuation `k`:
when the gate rejects, the candidate is skipped (`none`) and `k` never
runs. -/
def candidateAfterEnglishGate {ρ : Type} (captions : List CaptionSegment)
    (k : List CaptionSegment → Option ρ) : Option ρ :=
  if isEnglishTranscription captions then k captions else none

/-- C6 (counterexample): the transcription `"the the the the the the"` has
six isolated-token occurrences of list words (so the claim's acceptance
predicate holds, with zero non-ASCII characters), yet the code counts
each distinct list word at most once — only `the` is found, the count is
1 < 5 — and rejects. -/
theorem C6_counterexample :
    claimEnglishAccept [⟨"the the the the the the".toList, 0, 1⟩] = true ∧
    isEnglishTranscription [⟨"the the the the the the".toList, 0, 1⟩] = false := by
  decide

/-- C6 (amended): the heuristic accepts iff the captions are non-empty, at
least 5 *distinct* words of the fixed function-word list appear
space-delimited in the joined lowercase caption text, and the ratio of
non-ASCII characters is below 0.2 (no non-ASCII characters, or
`5 · nonLatin < length`); on rejection the candidate video is skipped no
matter what the rest of the pipeline would do. -/
theorem C6_english_gate (captions : List CaptionSegment) :
    (isEnglishTranscription captions = true ↔
      (captions ≠ [] ∧
        5 ≤ (commonEnglishWords.filter
              (fun w => appearsSpaceDelimited (joinedLowerText captions) w)).length ∧
        (nonLatinCount captions = 0 ∨
          5 * nonLatinCount captions < (joinedLowerText captions).length))) ∧
    (isEnglishTranscription captions = false →
      ∀ (ρ : Type) (k : List CaptionSegment → Option ρ),
        candidateAfterEnglishGate captions k = none) := by
  constructor
  · unfold isEnglishTranscription
    by_cases hnil : captions.length = 0
    · rw [if_pos hnil]
      simp only [Bool.false_eq_true, false_iff]
      intro h
      exact h.1 (List.length_eq_zero.mp hnil)
    · rw [if_neg hnil]
      simp only [Bool.and_eq_true, decide_eq_true_eq]
      constructor
      · rintro ⟨h1, h2⟩
        exact ⟨fun h => hnil (by rw [h]; rfl), h1, h2⟩
      · rintro ⟨-, h1, h2⟩
        exact ⟨h1, h2⟩
  · intro hrej ρ k
    unfold candidateAfterEnglishGate
    rw [hrej]
    rfl

/-- C6 (witness): the amended theorem applied to a concrete non-English
transcription and a concrete continuation. -/
theorem C6_english_gate_witness :
    candidateAfterEnglishGate [⟨"xyz".toList, 0, 1⟩]
      (fun c => some c.length) = none :=
  (C6_english_gate [⟨"xyz".toList, 0, 1⟩]).2 (by decide) Nat (fun c => some c.length)

/-! ## Word index (`src/db/wordIndex.ts`) -/

/-- The punctuation class replaced by spaces in `extractWords`:
`[.,!?;:'"()\[\]{}—–-]` (the braces are written by code point). -/
def wordPunct : List Char :=
  ['.', ',', '!', '?', ';', ':', '\'', '"', '(', ')', '[', ']',
   Char.ofNat 123, Char.ofNat 125, '—', '–', '-']

/-- JS `new Set(...)` materialized as a list: keep the first occurrence of
each element, in insertion order. -/
def uniqueFirst (l : List Str) : List Str :=
  l.foldl (fun acc w => if w ∈ acc then acc else acc ++ [w]) []

theorem mem_foldl_uniqueFirst :
    ∀ (l acc : List Str) (w : Str),
      w ∈ l.foldl (fun acc w => if w ∈ acc then acc else acc ++ [w]) acc →
      w ∈ acc ∨ w ∈ l := by
  intro l
  induction l with
  | nil => intro acc w h; exact Or.inl h
  | cons x xs ih =>
    intro acc w h
    rw [List.foldl_cons] at h
    rcases ih _ w h with hacc | hxs
    · by_cases hx : x ∈ acc
      · rw [if_pos hx] at hacc
        exact Or.inl hacc
      · rw [if_neg hx] at hacc
        rcases List.mem_append.mp hacc with h1 | h1
        · exact Or.inl h1
        · rcases List.mem_singleton.mp h1 with rfl
          exact Or.inr (List.mem_cons_self _ _)
    · exact Or.inr (List.mem_cons_of_mem x hxs)

theorem mem_uniqueFirst {l : List Str} {w : Str} (h : w ∈ uniqueFirst l) : w ∈ l := by
  rcases mem_foldl_uniqueFirst l [] w h with h1 | h1
  · cases h1
  · exact h1

/-- `extractWords(caption)` from `src/db/wordIndex.ts`: lowercase, replace
punctuation with spaces, split on whitespace, drop empties, deduplicate
(JS `Set`: first occurrences, insertion order). -/
def extractWords (caption : Str) : List Str :=
  uniqueFirst (splitWs ((lowerStr caption).map
    (fun c => if c ∈ wordPunct then ' ' else c)))

/-- One timed caption row persisted with a segment:
`{start, end, text}` (`end` is named `stop` here). -/
structure DbCaption where
  start : Int
  stop : Int
  text : Str
deriving DecidableEq

/-- A segment reference stored in the word index (`VideoResponse`). -/
structure VideoResponse where
  videoId : Str
  videoUrl : Str
  startTime : Int
  endTime : Int
  caption : Str
  captions : List DbCaption
deriving DecidableEq

/-- The `word_index` table: rows `(word, video_examples)` keyed by the
`word` primary key. -/
abbrev WordIndex := List (Str × List VideoResponse)

/-- `SELECT video_examples FROM word_index WHERE word = $1`. -/
def wordIndexGet (st : WordIndex) (w : Str) : Option (List VideoResponse) :=
  (st.find? (fun e => e.1 == w)).map (fun e => e.2)

/-- `findByWord(word)` from `src/db/wordIndex.ts`: lowercases its argument
before querying; `null` when there is no row. -/
def findByWord (st : WordIndex) (word : Str) : Option (List VideoResponse) :=
  wordIndexGet st (lowerStr word)

/-- C9: word-index lookup is case-insensitive at the public interface —
`extractWords` produces only lowercase words (every extracted word is a
fixed point of lowercasing), and `findByWord` lowercases its argument
before querying, so `findByWord st w = findByWord st (lowercase w)` for
every string `w` and store `st`. -/
theorem C9_case_insensitive (st : WordIndex) (w : Str) (caption : Str) :
    findByWord st w = findByWord st (lowerStr w) ∧
    ∀ x ∈ extractWords caption, lowerStr x = x := by
  constructor
  · unfold findByWord
    rw [lowerStr_idem]
  · intro x hx
    have hx' := mem_uniqueFirst hx
    have hchars := mem_splitWs hx'
    have hfix : ∀ c ∈ x, lowerChar c = c := by
      intro c hc
      obtain ⟨hmem, hnws⟩ := hchars c hc
      obtain ⟨c1, hc1mem, hc1⟩ := List.mem_map.mp hmem
      by_cases hp : c1 ∈ wordPunct
      · rw [if_pos hp] at hc1
        rw [← hc1] at hnws
        exact absurd hnws (by decide)
      · rw [if_neg hp] at hc1
        obtain ⟨c2, -, hc2⟩ := List.mem_map.mp hc1mem
        rw [← hc1, ← hc2]
        exact lowerChar_idem c2
    calc lowerStr x = x.map id := List.map_congr_left hfix
    _ = x := List.map_id x

/-- C9 (witness): the theorem applied to the store `[("hello", [])]`, the
query `"HeLLo"` and the caption `"Don't"`. -/
theorem C9_case_insensitive_witness :
    lowerStr "don".toList = "don".toList :=
  (C9_case_insensitive [("hello".toList, [])] "HeLLo".toList "Don't".toList).2
    "don".toList (by decide)

/-! ## Search route (`src/routes` POST `/search`, with the Result Store
`src/db/videoExamples.ts` and the Job Store `src/db/jobQueue.ts`) -/

/-- A `video_examples` row (`VideoExample`): the permanently cached
segment, keyed by the unique `hash`. -/
structure VideoExample where
  id : Str
  hash : Str
  query : Str
  videoId : Str
  startTime : Int
  endTime : Int
  caption : Str
  captions : List DbCaption
deriving DecidableEq

/-- `JobStatus` from `src/db/jobQueue.ts`. -/
inductive JobStatus
  | queued
  | searching
  | downloading
  | transcribing
  | completed
  | failed
deriving DecidableEq

/-- `JobResult` from `src/db/jobQueue.ts`. -/
structure JobResult where
  videoId : Str
  videoUrl : Str
  startTime : Int
  endTime : Int
  caption : Str
  captions : List DbCaption
deriving DecidableEq

/-- A `job_queue` row (`Job`). -/
structure Job where
  id : Str
  hash : Str
  query : Str
  normalizedQuery : Str
  queryType : QType
  status : JobStatus
  currentVideoId : Option Str
  result : Option JobResult
  error : Option Str
deriving DecidableEq

/-- The durable state touched by the search route: the Result Store
(`video_examples`, keyed by hash) and the Job Store (`job_queue` rows in
creation order). -/
structure SearchDb where
  examples : List (Str × VideoExample)
  jobs : List Job
deriving DecidableEq

/-- `findByHash` from `src/db/videoExamples.ts`. -/
def findByHash (db : SearchDb) (h : Str) : Option VideoExample :=
  (db.examples.find? (fun e => e.1 == h)).map (fun e => e.2)

/-- `findJobByHash` from `src/db/jobQueue.ts`. -/
def findJobByHash (db : SearchDb) (h : Str) : Option Job :=
  db.jobs.find? (fun j => j.hash == h)

/-- `findJobById` from `src/db/jobQueue.ts`. -/
def findJobById (db : SearchDb) (i : Str) : Option Job :=
  db.jobs.find? (fun j => j.id == i)

/-- `createJob` from `src/db/jobQueue.ts`: insert a fresh row with status
`queued`. -/
def createJob (db : SearchDb) (freshId h q nq : Str) (t : QType) : Job × SearchDb :=
  let j : Job := ⟨freshId, h, q, nq, t, .queued, none, none, none⟩
  (j, { db with jobs := db.jobs ++ [j] })

/-- The JSON responses of POST `/search` (human-readable `message` fields
of in-progress responses omitted). -/
inductive SearchResponse
  | badRequest (error : Str)
  | notFound (error : Str)
  | completed (jobId : Str) (query : Str) (videoId : Str) (videoUrl : Str)
      (startTime endTime : Int) (caption : Str) (captions : List DbCaption)
  | inProgress (status : JobStatus) (jobId : Str) (query : Str)
      (currentVideoId : Option Str)
  | failed (jobId : Str) (query : Str) (error : Str)
deriving DecidableEq

/-- `https://www.youtube.com/watch?v=<videoId>`. -/
def ytUrl (videoId : Str) : Str := "https://www.youtube.com/watch?v=".toList ++ videoId

/-- `getInProgressResponse` from the search router: `currentVideoId` is
included only for `downloading`/`transcribing`; unexpected statuses fall
back to `queued`. -/
def getInProgressResponse (jobId query : Str) (st : JobStatus) (cvid : Option Str) :
    SearchResponse :=
  match st with
  | .queued => .inProgress .queued jobId query none
  | .searching => .inProgress .searching jobId query none
  | .downloading => .inProgress .downloading jobId query cvid
  | .transcribing => .inProgress .transcribing jobId query cvid
  | _ => .inProgress .queued jobId query none

/-- The POST `/search` handler from the search router
(`router.post('/search', ...)`), parametrized by the deterministic hash
function `generateHash` of `src/utils/hash.ts` (not part of the source
tree) and by the UUID `freshId` a job creation would use.  Returns the
response and the database state after the request. -/
def handleSearch (hashFn : Str → Str) (freshId : Str) (db : SearchDb)
    (query : Option Str) (jobId : Option Str) : SearchResponse × SearchDb :=
  match query with
  | none => (.badRequest "Query is required".toList, db)
  | some q =>
    if q = [] then (.badRequest "Query is required".toList, db)
    else
      match jobId with
      | some jid =>
        match findJobById db jid with
        | none => (.notFound "Job not found".toList, db)
        | some job =>
          match job.status, job.result with
          | .completed, some r =>
            (.completed job.id job.normalizedQuery r.videoId r.videoUrl
              r.startTime r.endTime r.caption r.captions, db)
          | .failed, _ =>
            (.failed job.id job.normalizedQuery
              (job.error.getD "Job processing failed".toList), db)
          | st, _ => (getInProgressResponse job.id job.normalizedQuery st
              job.currentVideoId, db)
      | none =>
        match normalizeQuery q with
        | .error e => (.badRequest e, db)
        | .ok nq =>
          let h := hashFn nq.normalized
          match findByHash db h with
          | some cached =>
            (.completed h nq.normalized cached.videoId (ytUrl cached.videoId)
              cached.startTime cached.endTime cached.caption cached.captions, db)
          | none =>
            match findJobByHash db h with
            | some job =>
              match job.status, job.result with
              | .completed, some r =>
                (.completed job.id job.normalizedQuery r.videoId r.videoUrl
                  r.startTime r.endTime r.caption r.captions, db)
              | .failed, _ =>
                (.failed job.id job.normalizedQuery
                  (job.error.getD "Job processing failed".toList), db)
              | st, _ => (getInProgressResponse job.id job.normalizedQuery st
                  job.currentVideoId, db)
            | none =>
              let p := createJob db freshId h q nq.normalized nq.type
              (.inProgress .queued p.1.id nq.normalized none, p.2)

/-- C3: once a segment row exists in the Result Store for the fingerprint
of a canonical input, every later POST `/search` whose query normalizes
to the same canonical input returns `completed` with exactly the stored
segment, with `videoUrl` reconstructed as
`https://www.youtube.com/watch?v=<videoId>`, and leaves the database
unchanged — no job row is created, so the pipeline is not re-run. -/
theorem C3_cache_hit (hashFn : Str → Str) (freshId : Str) (db : SearchDb)
    (q q' : Str) (nq nq' : NormalizedQuery) (ex : VideoExample)
    (_hq : normalizeQuery q = .ok nq) (hq' : normalizeQuery q' = .ok nq')
    (hsame : nq'.normalized = nq.normalized)
    (hex : findByHash db (hashFn nq.normalized) = some ex) :
    handleSearch hashFn freshId db (some q') none =
      (.completed (hashFn nq.normalized) nq.normalized ex.videoId (ytUrl ex.videoId)
        ex.startTime ex.endTime ex.caption ex.captions, db) := by
  have hq'ne : ¬ q' = [] := by
    intro h
    subst h
    rw [show normalizeQuery [] = .error "Query cannot be empty".toList from rfl] at hq'
    exact Except.noConfusion hq'
  unfold handleSearch
  dsimp only
  rw [if_neg hq'ne, hq']
  dsimp only
  rw [hsame, hex]

/-- C3 (witness): the theorem applied to a concrete pre-seeded store and
the queries `"HELLO "` (seeding) and `"hello"` (later lookup), with the
identity standing in for the hash function. -/
theorem C3_cache_hit_witness :
    (handleSearch (fun s => s) "uuid1".toList
      ⟨[("hello".toList,
         ⟨"id1".toList, "hello".toList, "HELLO ".toList, "v1".toList, 0, 3,
          "Hello world.".toList, []⟩)], []⟩
      (some "hello".toList) none).1 =
      SearchResponse.completed "hello".toList "hello".toList "v1".toList
        (ytUrl "v1".toList) 0 3 "Hello world.".toList [] :=
  congrArg Prod.fst
    (C3_cache_hit (fun s => s) "uuid1".toList _ "HELLO ".toList "hello".toList
      ⟨"hello".toList, .word⟩ ⟨"hello".toList, .word⟩ _ (by rfl) (by rfl) rfl (by rfl))

/-! ## AI paywall (`src/db/aiPaywall.ts`, `src/middleware/paywall.ts`) -/

/-- An `ai_paywall_usage` row for one user: `{request_count, window_start}`
(clock values in milliseconds). -/
structure UsageRec where
  requestCount : Nat
  windowStart : Nat
deriving DecidableEq

/-- `AI_FREE_REQUESTS_LIMIT` default: 3 free requests. -/
def FREE_REQUESTS_LIMIT : Nat := 3

/-- `AI_FREE_REQUESTS_WINDOW_MINUTES` default (240 minutes), in
milliseconds. -/
def WINDOW_MS : Nat := 240 * 60 * 1000

/-- Return type of `checkAiPaywall`; `requestsLimit = none` models
`Infinity`. -/
structure PaywallCheckResult where
  allowed : Bool
  requestsUsed : Nat
  requestsLimit : Option Nat
  retryAfterSeconds : Option Nat
  hasSubscription : Bool
deriving DecidableEq

/-- `checkAiPaywall(userId, hasSubscription)` from `src/db/aiPaywall.ts`,
with the user's row and the clock passed explicitly.
`Math.ceil((windowEnd - now) / 1000)` on millisecond integers is
`(windowEnd - now + 999) / 1000`. -/
def checkAiPaywall (rec : Option UsageRec) (now : Nat) (hasSubscription : Bool) :
    PaywallCheckResult :=
  if hasSubscription then ⟨true, 0, none, none, true⟩
  else
    match rec with
    | none => ⟨true, 0, some FREE_REQUESTS_LIMIT, none, false⟩
    | some r =>
      let windowEnd := r.windowStart + WINDOW_MS
      if windowEnd ≤ now then ⟨true, 0, some FREE_REQUESTS_LIMIT, none, false⟩
      else if FREE_REQUESTS_LIMIT ≤ r.requestCount then
        ⟨false, r.requestCount, some FREE_REQUESTS_LIMIT,
          some ((windowEnd - now + 999) / 1000), false⟩
      else ⟨true, r.requestCount, some FREE_REQUESTS_LIMIT, none, false⟩

/-- `incrementAiUsage(userId)` from `src/db/aiPaywall.ts`: insert a
count-1 row, reset an expired window, or increment within the window. -/
def incrementAiUsage (rec : Option UsageRec) (now : Nat) : UsageRec :=
  match rec with
  | none => ⟨1, now⟩
  | some r =>
    if r.windowStart + WINDOW_MS ≤ now then ⟨1, now⟩
    else ⟨r.requestCount + 1, r.windowStart⟩

/-- What one `aiPaywallMiddleware` call produced: `blocked` is the
`(HTTP status, error code)` of an early JSON response (`none` when
`next()` ran), `headerUsed` the final `X-Paywall-Requests-Used` value,
`retryAfterSeconds` the denial's retry hint, and `record` the user's
usage row after the call. -/
structure MwOutcome where
  blocked : Option (Nat × Str)
  headerUsed : Option Nat
  retryAfterSeconds : Option Nat
  record : Option UsageRec
deriving DecidableEq

/-- `req.body.userId || req.headers['x-user-id']` (JS: empty strings are
falsy), normalized so that a falsy result is `none`. -/
def effectiveUserId (bodyUserId headerUserId : Option Str) : Option Str :=
  let raw := match bodyUserId with
    | some u => if u = [] then headerUserId else some u
    | none => headerUserId
  match raw with
  | some u => if u = [] then none else some u
  | none => none

/-- `aiPaywallMiddleware()` from `src/middleware/paywall.ts` for one
request: reject without a user id; consult the subscription status
(`hasSub`, the outcome of `checkSubscription`); check the quota; deny
with 403 and a `retryAfterSeconds || 14400` hint; otherwise increment the
counter in the non-subscriber branch and continue.  `now` and `now2` are
the clocks of the check and of the increment. -/
def aiPaywallMiddleware (bodyUserId headerUserId : Option Str) (hasSub : Bool)
    (rec : Option UsageRec) (now now2 : Nat) : MwOutcome :=
  match effectiveUserId bodyUserId headerUserId with
  | none => ⟨some (401, "USER_ID_REQUIRED".toList), none, none, rec⟩
  | some _ =>
    let r := checkAiPaywall rec now hasSub
    if r.allowed = false then
      let retryAfter := match r.retryAfterSeconds with
        | some n => if n = 0 then 14400 else n
        | none => 14400
      ⟨some (403, "PAYWALL_LIMIT_EXCEEDED".toList), some r.requestsUsed,
        some retryAfter, rec⟩
    else if hasSub = false then
      ⟨none, some (r.requestsUsed + 1), none, some (incrementAiUsage rec now2)⟩
    else
      ⟨none, some r.requestsUsed, none, rec⟩

/-- The requests counted in the user's current 240-minute window — the
claim's notion of the counter: the row's count while the window is
active, else 0. -/
def countInWindow (rec : Option UsageRec) (now : Nat) : Nat :=
  match rec with
  | none => 0
  | some r => if now < r.windowStart + WINDOW_MS then r.requestCount else 0

theorem checkAiPaywall_subscriber (rec : Option UsageRec) (now : Nat) :
    checkAiPaywall rec now true = ⟨true, 0, none, none, true⟩ := by
  unfold checkAiPaywall
  rw [if_pos rfl]

theorem checkAiPaywall_norec (now : Nat) :
    checkAiPaywall none now false = ⟨true, 0, some FREE_REQUESTS_LIMIT, none, false⟩ := by
  rfl

theorem checkAiPaywall_expired (r : UsageRec) (now : Nat)
    (hw : r.windowStart + WINDOW_MS ≤ now) :
    checkAiPaywall (some r) now false =
      ⟨true, 0, some FREE_REQUESTS_LIMIT, none, false⟩ := by
  unfold checkAiPaywall
  rw [if_neg (by decide)]
  simp only
  rw [if_pos hw]

theorem checkAiPaywall_denied (r : UsageRec) (now : Nat)
    (hw : ¬ r.windowStart + WINDOW_MS ≤ now)
    (hc : FREE_REQUESTS_LIMIT ≤ r.requestCount) :
    checkAiPaywall (some r) now false =
      ⟨false, r.requestCount, some FREE_REQUESTS_LIMIT,
        some ((r.windowStart + WINDOW_MS - now + 999) / 1000), false⟩ := by
  unfold checkAiPaywall
  rw [if_neg (by decide)]
  simp only
  rw [if_neg hw, if_pos hc]

theorem checkAiPaywall_under (r : UsageRec) (now : Nat)
    (hw : ¬ r.windowStart + WINDOW_MS ≤ now)
    (hc : ¬ FREE_REQUESTS_LIMIT ≤ r.requestCount) :
    checkAiPaywall (some r) now false =
      ⟨true, r.requestCount, some FREE_REQUESTS_LIMIT, none, false⟩ := by
  unfold checkAiPaywall
  rw [if_neg (by decide)]
  simp only
  rw [if_neg hw, if_neg hc]

theorem countInWindow_active (r : UsageRec) (now : Nat)
    (hw : ¬ r.windowStart + WINDOW_MS ≤ now) :
    countInWindow (some r) now = r.requestCount := by
  simp only [countInWindow]
  rw [if_pos (by omega)]

theorem countInWindow_expired (r : UsageRec) (now : Nat)
    (hw : r.windowStart + WINDOW_MS ≤ now) :
    countInWindow (some r) now = 0 := by
  simp only [countInWindow]
  rw [if_neg (by omega)]

/-- C4: for a non-subscriber, a request is allowed iff the requests
counted in the current 240-minute window are fewer than 3 (and
`requestsUsed` reports exactly that count); a denied request returns 403
with `retryAfterSeconds > 0` and `X-Paywall-Requests-Used` equal to the
current count, leaving the counter unchanged; an allowed request
increments the counter, and only in the non-subscriber branch (a
subscriber's row is never touched); window expiry resets the counter. -/
theorem C4_quota (rec : Option UsageRec) (now now2 : Nat) (u : Str) (hu : ¬ u = []) :
    ((checkAiPaywall rec now false).allowed = true ↔ countInWindow rec now < 3) ∧
    ((checkAiPaywall rec now false).requestsUsed = countInWindow rec now) ∧
    ((checkAiPaywall rec now false).allowed = false →
      ∃ n, 0 < n ∧
        aiPaywallMiddleware (some u) none false rec now now2 =
          ⟨some (403, "PAYWALL_LIMIT_EXCEEDED".toList), some (countInWindow rec now),
            some n, rec⟩) ∧
    ((checkAiPaywall rec now false).allowed = true →
      aiPaywallMiddleware (some u) none false rec now now2 =
        ⟨none, some (countInWindow rec now + 1), none,
          some (incrementAiUsage rec now2)⟩) ∧
    ((aiPaywallMiddleware (some u) none true rec now now2).record = rec) ∧
    (∀ r, rec = some r → r.windowStart + WINDOW_MS ≤ now →
      (checkAiPaywall rec now false).allowed = true ∧ countInWindow rec now = 0) ∧
    (∀ r, rec = some r → r.windowStart + WINDOW_MS ≤ now2 →
      incrementAiUsage rec now2 = ⟨1, now2⟩) := by
  have huid : effectiveUserId (some u) none = some u := by
    simp [effectiveUserId, hu]
  have hsub : (aiPaywallMiddleware (some u) none true rec now now2).record = rec := by
    simp only [aiPaywallMiddleware, huid, checkAiPaywall_subscriber rec now]
    rw [if_neg (by decide), if_neg (by decide)]
  refine ⟨?_, ?_, ?_, ?_, hsub, ?_, ?_⟩
  · rcases rec with - | r
    · rw [checkAiPaywall_norec now]
      exact ⟨fun _ => (by decide : (0 : Nat) < 3), fun _ => rfl⟩
    · by_cases hw : r.windowStart + WINDOW_MS ≤ now
      · rw [checkAiPaywall_expired r now hw, countInWindow_expired r now hw]
        exact ⟨fun _ => by decide, fun _ => rfl⟩
      · by_cases hc : FREE_REQUESTS_LIMIT ≤ r.requestCount
        · rw [checkAiPaywall_denied r now hw hc, countInWindow_active r now hw]
          have hc3 : 3 ≤ r.requestCount := hc
          exact ⟨fun h => Bool.noConfusion h, fun h => absurd h (by omega)⟩
        · rw [checkAiPaywall_under r now hw hc, countInWindow_active r now hw]
          have hc3 : ¬ 3 ≤ r.requestCount := hc
          exact ⟨fun _ => by omega, fun _ => rfl⟩
  · rcases rec with - | r
    · rw [checkAiPaywall_norec now]
      rfl
    · by_cases hw : r.windowStart + WINDOW_MS ≤ now
      · rw [checkAiPaywall_expired r now hw, countInWindow_expired r now hw]
      · by_cases hc : FREE_REQUESTS_LIMIT ≤ r.requestCount
        · rw [checkAiPaywall_denied r now hw hc, countInWindow_active r now hw]
        · rw [checkAiPaywall_under r now hw hc, countInWindow_active r now hw]
  · intro hdeny
    rcases rec with - | r
    · rw [checkAiPaywall_norec now] at hdeny
      exact Bool.noConfusion hdeny
    · by_cases hw : r.windowStart + WINDOW_MS ≤ now
      · rw [checkAiPaywall_expired r now hw] at hdeny
        exact Bool.noConfusion hdeny
      · by_cases hc : FREE_REQUESTS_LIMIT ≤ r.requestCount
        · have hc3 : 3 ≤ r.requestCount := hc
          have h1 : 1 ≤ r.windowStart + WINDOW_MS - now := by omega
          have hn : ¬ (r.windowStart + WINDOW_MS - now + 999) / 1000 = 0 := by omega
          refine ⟨(r.windowStart + WINDOW_MS - now + 999) / 1000, by omega, ?_⟩
          simp only [aiPaywallMiddleware, huid, checkAiPaywall_denied r now hw hc,
            countInWindow_active r now hw]
          rw [if_pos trivial, if_neg hn]
        · rw [checkAiPaywall_under r now hw hc] at hdeny
          exact Bool.noConfusion hdeny
  · intro hallow
    rcases rec with - | r
    · simp only [aiPaywallMiddleware, huid, checkAiPaywall_norec now]
      rw [if_pos trivial]
      rfl
    · by_cases hw : r.windowStart + WINDOW_MS ≤ now
      · simp only [aiPaywallMiddleware, huid, checkAiPaywall_expired r now hw,
          countInWindow_expired r now hw]
        rw [if_pos trivial, if_neg (by decide)]
      · by_cases hc : FREE_REQUESTS_LIMIT ≤ r.requestCount
        · rw [checkAiPaywall_denied r now hw hc] at hallow
          exact Bool.noConfusion hallow
        · simp only [aiPaywallMiddleware, huid, checkAiPaywall_under r now hw hc,
            countInWindow_active r now hw]
          rw [if_pos trivial, if_neg (by decide)]
  · rintro r rfl hw
    exact ⟨by rw [checkAiPaywall_expired r now hw], countInWindow_expired r now hw⟩
  · rintro r rfl hw
    simp only [incrementAiUsage]
    rw [if_pos hw]

/-- C4 (witness): the theorem applied to a user at the limit — a row of 3
requests inside an active window — and to the expired-window reset. -/
theorem C4_quota_witness :
    (checkAiPaywall (some ⟨3, 0⟩) 1000 false).allowed = false ∧
    (aiPaywallMiddleware (some "u1".toList) none false (some ⟨3, 0⟩) 1000 1000).record =
      some ⟨3, 0⟩ ∧
    incrementAiUsage (some ⟨3, 0⟩) (WINDOW_MS + 5) = ⟨1, WINDOW_MS + 5⟩ := by
  have h := C4_quota (some ⟨3, 0⟩) 1000 1000 "u1".toList (by decide)
  refine ⟨by decide, ?_, ?_⟩
  · obtain ⟨n, -, heq⟩ := h.2.2.1 (by decide)
    rw [heq]
  · exact (C4_quota (some ⟨3, 0⟩) 1000 (WINDOW_MS + 5) "u1".toList (by decide)).2.2.2.2.2.2
      ⟨3, 0⟩ rfl (by decide)

/-! ## POST `/analyze/stream` composition (`src/routes` analyze router) -/

/-- Result of the composed POST `/analyze/stream` endpoint: either the
paywall middleware blocked the request with an early JSON response, or
the route body ran. -/
inductive EndpointResult (ρ : Type)
  | blocked (status : Nat) (code : Str)
  | handled (r : ρ)
deriving DecidableEq

/-- Express composition
`router.post('/analyze/stream', aiPaywallMiddleware(), handler)`: the
route body — all of its field validation and streaming included — runs
only when the middleware calls `next()`.  `handler` abstracts the entire
route body (with the request's other body fields enclosed) as a state
transformer over the usage row. -/
def analyzeStreamEndpoint {ρ : Type} (handler : Option UsageRec → ρ × Option UsageRec)
    (bodyUserId headerUserId : Option Str) (hasSub : Bool) (rec : Option UsageRec)
    (now now2 : Nat) : EndpointResult ρ × Option UsageRec :=
  let mw := aiPaywallMiddleware bodyUserId headerUserId hasSub rec now now2
  match mw.blocked with
  | some p => (.blocked p.1 p.2, mw.record)
  | none =>
    let hr := handler mw.record
    (.handled hr.1, hr.2)

/-- C10: a POST `/analyze/stream` request that carries no user id (neither
`userId` in the body nor an `x-user-id` header) is rejected with HTTP 401
and code `USER_ID_REQUIRED` by the paywall middleware before the route
body — and hence any of its field validation — runs, for every possible
route body, and the quota counter row is left untouched. -/
theorem C10_missing_user_id (ρ : Type)
    (handler : Option UsageRec → ρ × Option UsageRec) (hasSub : Bool)
    (rec : Option UsageRec) (now now2 : Nat) :
    analyzeStreamEndpoint handler none none hasSub rec now now2 =
      (.blocked 401 "USER_ID_REQUIRED".toList, rec) := rfl

/-! ## Subscription check (`src/services/revenueCat.ts`, `checkSubscription`) -/

/-- The fields of `SubscriptionStatus` the cache logic depends on
(`entitlementId`/`expiresDate`/`productId` are data carried along and
irrelevant to the claims). -/
structure SubStatus where
  isActive : Bool
  willRenew : Bool
deriving DecidableEq

/-- Outcome of the RevenueCat fetch, an external collaborator:
a parsed 200 response (`parseSubscriptionStatus` result), a 404, another
HTTP error, or a thrown network error. -/
inductive ProviderOutcome
  | ok (status : SubStatus)
  | notFound
  | httpError
  | networkError
deriving DecidableEq

/-- The in-memory `subscriptionCache`: `userId → {status, cachedAt}`. -/
abbrev SubCache := List (Str × (SubStatus × Nat))

/-- `CACHE_TTL_MS = 5 * 60 * 1000`. -/
def CACHE_TTL_MS : Nat := 5 * 60 * 1000

/-- `subscriptionCache.get(appUserId)`. -/
def subCacheGet (c : SubCache) (k : Str) : Option (SubStatus × Nat) :=
  (c.find? (fun e => e.1 == k)).map (fun e => e.2)

/-- `subscriptionCache.delete(appUserId)`. -/
def subCacheDelete (c : SubCache) (k : Str) : SubCache :=
  c.filter (fun e => !(e.1 == k))

/-- `subscriptionCache.set(appUserId, v)` (JS `Map.set`: replace in place,
else append). -/
def subCacheSet : SubCache → Str → SubStatus × Nat → SubCache
  | [], k, v => [(k, v)]
  | e :: es, k, v => if e.1 = k then (k, v) :: es else e :: subCacheSet es k v

/-- Result of one `checkSubscription` call: the returned status, the cache
afterwards, and whether the RevenueCat API was consulted. -/
structure CheckSubResult where
  status : SubStatus
  cache : SubCache
  consultedProvider : Bool
deriving DecidableEq

/-- The fetch part of `checkSubscription` (everything from the `fetch` on),
operating on the cache state `c` reached before the request: non-ok
responses and network errors return inactive without caching; a parsed
active status is cached at `now`; a parsed inactive status is not cached
and clears any stale entry for the user. -/
def checkSubscriptionFetch (c : SubCache) (now : Nat) (uid : Str)
    (outcome : ProviderOutcome) : CheckSubResult :=
  match outcome with
  | .notFound => ⟨⟨false, false⟩, c, true⟩
  | .httpError => ⟨⟨false, false⟩, c, true⟩
  | .networkError => ⟨⟨false, false⟩, c, true⟩
  | .ok st =>
    if st.isActive then ⟨st, subCacheSet c uid (st, now), true⟩
    else ⟨st, subCacheDelete c uid, true⟩

/-- `checkSubscription(appUserId, forceRefresh)` from
`src/services/revenueCat.ts`, with the cache, the clock, the API-key
presence and the provider outcome passed explicitly: without an API key
everyone is free; a force refresh clears the user's entry; otherwise a
cache entry younger than 5 minutes short-circuits; else the provider is
consulted. -/
def checkSubscription (c : SubCache) (now : Nat) (uid : Str) (forceRefresh : Bool)
    (hasApiKey : Bool) (outcome : ProviderOutcome) : CheckSubResult :=
  match hasApiKey with
  | false => ⟨⟨false, false⟩, c, false⟩
  | true =>
    match forceRefresh with
    | false =>
      match subCacheGet c uid with
      | some (st, t) =>
        if now - t < CACHE_TTL_MS then ⟨st, c, false⟩
        else checkSubscriptionFetch c now uid outcome
      | none => checkSubscriptionFetch c now uid outcome
    | true => checkSubscriptionFetch (subCacheDelete c uid) now uid outcome

theorem subCacheGet_delete (c : SubCache) (k : Str) :
    subCacheGet (subCacheDelete c k) k = none := by
  have h : List.find? (fun e => e.1 == k) (List.filter (fun e => !(e.1 == k)) c) = none := by
    rw [List.find?_eq_none]
    intro a ha
    have hf := List.of_mem_filter ha
    simp only [Bool.not_eq_true'] at hf
    simp [hf]
  unfold subCacheGet subCacheDelete
  rw [h]
  rfl

theorem mem_subCacheSet (c : SubCache) (k : Str) (v : SubStatus × Nat) :
    ∀ e ∈ subCacheSet c k v, e ∈ c ∨ e = (k, v) := by
  induction c with
  | nil =>
    intro e he
    rcases List.mem_singleton.mp he with rfl
    exact Or.inr rfl
  | cons x xs ih =>
    intro e he
    unfold subCacheSet at he
    by_cases hx : x.1 = k
    · rw [if_pos hx] at he
      rcases List.mem_cons.mp he with rfl | he'
      · exact Or.inr rfl
      · exact Or.inl (List.mem_cons_of_mem x he')
    · rw [if_neg hx] at he
      rcases List.mem_cons.mp he with rfl | he'
      · exact Or.inl (List.mem_cons_self _ _)
      · rcases ih e he' with h | h
        · exact Or.inl (List.mem_cons_of_mem x h)
        · exact Or.inr h

theorem mem_subCacheDelete (c : SubCache) (k : Str) :
    ∀ e ∈ subCacheDelete c k, e ∈ c := by
  intro e he
  exact List.mem_of_mem_filter he

/-- C7: subscription-entitlement results are cached for 5 minutes per
user id and only active results are ever cached — a cache entry younger
than the TTL is returned without consulting the provider; when the
provider is consulted, every entry of the resulting cache either was
already cached or is the active status of this call stamped at `now`; an
inactive 200 response is never cached and clears the user's entry;
provider errors (404, other HTTP errors, thrown fetch) yield the
inactive fail-open status and cache nothing. -/
theorem C7_subscription_cache (c : SubCache) (now : Nat) (uid : Str)
    (fr hasKey : Bool) (oc : ProviderOutcome) :
    ((checkSubscription c now uid fr hasKey oc).consultedProvider = true →
      ∀ e ∈ (checkSubscription c now uid fr hasKey oc).cache,
        e ∈ c ∨ (e.1 = uid ∧ (e.2.1.isActive = true ∧ e.2.2 = now))) ∧
    (∀ st t, fr = false → hasKey = true → subCacheGet c uid = some (st, t) →
      now - t < CACHE_TTL_MS →
      checkSubscription c now uid fr hasKey oc = ⟨st, c, false⟩) ∧
    (∀ st, oc = .ok st → st.isActive = false →
      (checkSubscription c now uid fr hasKey oc).consultedProvider = true →
      subCacheGet (checkSubscription c now uid fr hasKey oc).cache uid = none) ∧
    ((oc = .notFound ∨ oc = .httpError ∨ oc = .networkError) →
      (checkSubscription c now uid fr hasKey oc).consultedProvider = true →
      (checkSubscription c now uid fr hasKey oc).status = ⟨false, false⟩ ∧
      (fr = false → (checkSubscription c now uid fr hasKey oc).cache = c)) := by
  have hfetch : ∀ (cp : SubCache),
      ∀ e ∈ (checkSubscriptionFetch cp now uid oc).cache,
        e ∈ cp ∨ (e.1 = uid ∧ (e.2.1.isActive = true ∧ e.2.2 = now)) := by
    intro cp e he
    cases oc with
    | ok st =>
      simp only [checkSubscriptionFetch] at he
      by_cases ha : st.isActive
      · rw [if_pos ha] at he
        rcases mem_subCacheSet cp uid (st, now) e he with h | h
        · exact Or.inl h
        · subst h
          exact Or.inr ⟨rfl, ha, rfl⟩
      · rw [if_neg ha] at he
        exact Or.inl (mem_subCacheDelete cp uid e he)
    | notFound => exact Or.inl he
    | httpError => exact Or.inl he
    | networkError => exact Or.inl he
  refine ⟨?_, ?_, ?_, ?_⟩
  · intro hcons e he
    cases hasKey with
    | false => cases hcons
    | true =>
      cases fr with
      | false =>
        simp only [checkSubscription] at hcons he
        cases hget : subCacheGet c uid with
        | none =>
          rw [hget] at hcons he
          exact hfetch c e he
        | some p =>
          obtain ⟨st0, t0⟩ := p
          rw [hget] at hcons he
          dsimp only at hcons he
          by_cases ht : now - t0 < CACHE_TTL_MS
          · rw [if_pos ht] at hcons
            cases hcons
          · rw [if_neg ht] at he
            exact hfetch c e he
      | true =>
        simp only [checkSubscription] at hcons he
        rcases hfetch (subCacheDelete c uid) e he with h | h
        · exact Or.inl (mem_subCacheDelete c uid e h)
        · exact Or.inr h
  · rintro st t rfl rfl hget ht
    simp only [checkSubscription, hget]
    rw [if_pos ht]
  · rintro st rfl hinact hcons
    have hres : ∀ (cp : SubCache),
        checkSubscriptionFetch cp now uid (.ok st) = ⟨st, subCacheDelete cp uid, true⟩ := by
      intro cp
      simp only [checkSubscriptionFetch]
      rw [if_neg (by rw [hinact]; exact Bool.false_ne_true)]
    cases hasKey with
    | false => cases hcons
    | true =>
      cases fr with
      | false =>
        simp only [checkSubscription] at hcons ⊢
        cases hget : subCacheGet c uid with
        | none =>
          dsimp only
          rw [hres c]
          exact subCacheGet_delete c uid
        | some p =>
          obtain ⟨st0, t0⟩ := p
          rw [hget] at hcons
          dsimp only at hcons ⊢
          by_cases ht : now - t0 < CACHE_TTL_MS
          · rw [if_pos ht] at hcons
            cases hcons
          · rw [if_neg ht, hres c]
            exact subCacheGet_delete c uid
      | true =>
        simp only [checkSubscription]
        rw [hres (subCacheDelete c uid)]
        exact subCacheGet_delete _ uid
  · intro herr hcons
    have hres : ∀ (cp : SubCache),
        checkSubscriptionFetch cp now uid oc = ⟨⟨false, false⟩, cp, true⟩ := by
      intro cp
      rcases herr with rfl | rfl | rfl <;> rfl
    cases hasKey with
    | false => cases hcons
    | true =>
      cases fr with
      | false =>
        simp only [checkSubscription] at hcons ⊢
        cases hget : subCacheGet c uid with
        | none =>
          dsimp only
          rw [hres c]
          exact ⟨rfl, fun _ => rfl⟩
        | some p =>
          obtain ⟨st0, t0⟩ := p
          rw [hget] at hcons
          dsimp only at hcons ⊢
          by_cases ht : now - t0 < CACHE_TTL_MS
          · rw [if_pos ht] at hcons
            cases hcons
          · rw [if_neg ht, hres c]
            exact ⟨rfl, fun _ => rfl⟩
      | true =>
        simp only [checkSubscription]
        rw [hres (subCacheDelete c uid)]
        exact ⟨rfl, fun h => Bool.noConfusion h⟩

/-- C7 (witness): the theorem applied to a concrete cache state — a fresh
hit is served from the cache without a provider call. -/
theorem C7_subscription_cache_witness :
    checkSubscription [("u1".toList, (⟨true, true⟩, 100))] 200 "u1".toList
      false true ProviderOutcome.networkError =
      ⟨⟨true, true⟩, [("u1".toList, (⟨true, true⟩, 100))], false⟩ :=
  (C7_subscription_cache [("u1".toList, (⟨true, true⟩, 100))] 200 "u1".toList
    false true ProviderOutcome.networkError).2.1 ⟨true, true⟩ 100 rfl rfl
    (by rfl) (by decide)

/-! ## Stream registry coalescing (`src/services/streamManager.ts`:
`createStream`, `startStream`, `getOrCreateStream`, `subscribe`) -/

/-- The slice of an `ActiveStream` registration the coalescing claim is
about: whether `apiCallPromise` has been set, how many times the
upstream Claude call has been launched for this key (a history counter;
the source launches it inside `startStream`), and the subscriber count. -/
structure StreamEntry where
  hasApiCall : Bool
  upstreamCalls : Nat
  subscribers : Nat
deriving DecidableEq

/-- The `streams : Map<string, ActiveStream>` of the `StreamManager`
singleton, as an association list with JS `Map` semantics. -/
abbrev Registry := List (Str × StreamEntry)

/-- `this.streams.get(cacheKey)`. -/
def regGet (r : Registry) (k : Str) : Option StreamEntry :=
  (r.find? (fun e => e.1 == k)).map (fun e => e.2)

/-- `this.streams.set(cacheKey, v)`: replace in place, else append. -/
def regSet : Registry → Str → StreamEntry → Registry
  | [], k, v => [(k, v)]
  | e :: es, k, v => if e.1 = k then (k, v) :: es else e :: regSet es k v

/-- `createStream(cacheKey, params)`: register a fresh `active` stream
with no chunks, no subscribers and no API call (capacity eviction only
removes terminal idle entries and cannot add upstream calls). -/
def createStream (r : Registry) (k : Str) : Registry :=
  regSet r k ⟨false, 0, 0⟩

/-- `startStream(cacheKey, params)`: if `apiCallPromise` is already set,
return it without a new upstream call; otherwise set it and launch the
single upstream Claude call (counted by `upstreamCalls`).  A missing
stream throws, leaving the registry unchanged. -/
def startStream (r : Registry) (k : Str) : Registry :=
  match regGet r k with
  | none => r
  | some e =>
    if e.hasApiCall then r
    else regSet r k { e with hasApiCall := true, upstreamCalls := e.upstreamCalls + 1 }

/-- `subscribe(cacheKey, res)`: attach one subscriber; a missing stream
throws, leaving the registry unchanged. -/
def subscribeReg (r : Registry) (k : Str) : Registry :=
  match regGet r k with
  | none => r
  | some e => regSet r k { e with subscribers := e.subscribers + 1 }

/-- `unsubscribe(cacheKey, id)`: detach one subscriber. -/
def unsubscribeReg (r : Registry) (k : Str) : Registry :=
  match regGet r k with
  | none => r
  | some e => regSet r k { e with subscribers := e.subscribers - 1 }

/-- `getOrCreateStream(cacheKey, params)`: return an existing
registration unchanged, else create the stream and start its API call —
all inside one synchronous JS task, hence atomic across requests. -/
def getOrCreateStream (r : Registry) (k : Str) : Registry :=
  match regGet r k with
  | some _ => r
  | none => startStream (createStream r k) k

/-- The registry operations requests can trigger. -/
inductive RegOp
  | getOrCreate (k : Str)
  | start (k : Str)
  | subscribe (k : Str)
  | unsubscribe (k : Str)

def applyRegOp (r : Registry) : RegOp → Registry
  | .getOrCreate k => getOrCreateStream r k
  | .start k => startStream r k
  | .subscribe k => subscribeReg r k
  | .unsubscribe k => unsubscribeReg r k

/-- The registry reached from the empty singleton state by any request
interleaving. -/
def runRegOps (ops : List RegOp) : Registry := ops.foldl applyRegOp []

/-- The coalescing invariant: keys are unique (at most one stream per
fingerprint) and every stream has launched the upstream call at most
once — exactly once iff its `apiCallPromise` is set. -/
def RegInv (r : Registry) : Prop :=
  ((r.map Prod.fst).Nodup) ∧
  ∀ e ∈ r, e.2.upstreamCalls ≤ 1 ∧ (e.2.hasApiCall = true ↔ e.2.upstreamCalls = 1)

theorem mem_regSet (r : Registry) (k : Str) (v : StreamEntry) :
    ∀ e ∈ regSet r k v, e ∈ r ∨ e = (k, v) := by
  induction r with
  | nil =>
    intro e he
    rcases List.mem_singleton.mp he with rfl
    exact Or.inr rfl
  | cons x xs ih =>
    intro e he
    unfold regSet at he
    by_cases hx : x.1 = k
    · rw [if_pos hx] at he
      rcases List.mem_cons.mp he with rfl | he'
      · exact Or.inr rfl
      · exact Or.inl (List.mem_cons_of_mem x he')
    · rw [if_neg hx] at he
      rcases List.mem_cons.mp he with rfl | he'
      · exact Or.inl (List.mem_cons_self _ _)
      · rcases ih e he' with h | h
        · exact Or.inl (List.mem_cons_of_mem x h)
        · exact Or.inr h

theorem mem_map_fst_regSet (r : Registry) (k : Str) (v : StreamEntry) :
    ∀ a ∈ (regSet r k v).map Prod.fst, a ∈ r.map Prod.fst ∨ a = k := by
  intro a ha
  obtain ⟨e, he, rfl⟩ := List.mem_map.mp ha
  rcases mem_regSet r k v e he with h | h
  · exact Or.inl (List.mem_map_of_mem Prod.fst h)
  · subst h
    exact Or.inr rfl

theorem nodup_regSet (r : Registry) (k : Str) (v : StreamEntry)
    (h : (r.map Prod.fst).Nodup) : ((regSet r k v).map Prod.fst).Nodup := by
  induction r with
  | nil => simp [regSet]
  | cons x xs ih =>
    rw [List.map_cons, List.nodup_cons] at h
    unfold regSet
    by_cases hx : x.1 = k
    · rw [if_pos hx]
      rw [List.map_cons, List.nodup_cons]
      exact ⟨by rw [← hx]; exact h.1, h.2⟩
    · rw [if_neg hx]
      rw [List.map_cons, List.nodup_cons]
      refine ⟨?_, ih h.2⟩
      intro hmem
      rcases mem_map_fst_regSet xs k v x.1 hmem with hm | hm
      · exact h.1 hm
      · exact hx hm

theorem regGet_mem (r : Registry) (k : Str) (e : StreamEntry)
    (h : regGet r k = some e) : ∃ p ∈ r, p.2 = e := by
  unfold regGet at h
  cases hf : r.find? (fun x => x.1 == k) with
  | none => rw [hf] at h; cases h
  | some p =>
    rw [hf] at h
    cases h
    exact ⟨p, List.mem_of_find?_eq_some hf, rfl⟩

theorem regInv_regSet (r : Registry) (k : Str) (v : StreamEntry) (h : RegInv r)
    (hv1 : v.upstreamCalls ≤ 1) (hv2 : v.hasApiCall = true ↔ v.upstreamCalls = 1) :
    RegInv (regSet r k v) := by
  refine ⟨nodup_regSet r k v h.1, ?_⟩
  intro e he
  rcases mem_regSet r k v e he with hm | hm
  · exact h.2 e hm
  · subst hm
    exact ⟨hv1, hv2⟩

theorem regInv_startStream (r : Registry) (k : Str) (h : RegInv r) :
    RegInv (startStream r k) := by
  unfold startStream
  cases hget : regGet r k with
  | none => exact h
  | some e =>
    dsimp only
    by_cases hac : e.hasApiCall
    · rw [if_pos hac]
      exact h
    · rw [if_neg hac]
      obtain ⟨p, hp, hpe⟩ := regGet_mem r k e hget
      obtain ⟨h1, h2⟩ := h.2 p hp
      rw [hpe] at h1 h2
      have hc0 : e.upstreamCalls = 0 := by
        rcases Nat.lt_or_ge e.upstreamCalls 1 with hlt | hge
        · omega
        · exact absurd (h2.mpr (by omega)) hac
      exact regInv_regSet r k _ h (by simp [hc0]) (by simp [hc0])

theorem regInv_applyOp (r : Registry) (op : RegOp) (h : RegInv r) :
    RegInv (applyRegOp r op) := by
  cases op with
  | start k => exact regInv_startStream r k h
  | subscribe k =>
    unfold applyRegOp subscribeReg
    dsimp only
    cases hget : regGet r k with
    | none => exact h
    | some e =>
      dsimp only
      obtain ⟨p, hp, hpe⟩ := regGet_mem r k e hget
      obtain ⟨h1, h2⟩ := h.2 p hp
      rw [hpe] at h1 h2
      exact regInv_regSet r k _ h h1 h2
  | unsubscribe k =>
    unfold applyRegOp unsubscribeReg
    dsimp only
    cases hget : regGet r k with
    | none => exact h
    | some e =>
      dsimp only
      obtain ⟨p, hp, hpe⟩ := regGet_mem r k e hget
      obtain ⟨h1, h2⟩ := h.2 p hp
      rw [hpe] at h1 h2
      exact regInv_regSet r k _ h h1 h2
  | getOrCreate k =>
    unfold applyRegOp getOrCreateStream
    dsimp only
    cases hget : regGet r k with
    | some e => exact h
    | none =>
      dsimp only
      exact regInv_startStream (createStream r k) k
        (regInv_regSet r k ⟨false, 0, 0⟩ h (by decide) (by decide))

theorem regInv_runRegOps (ops : List RegOp) : RegInv (runRegOps ops) := by
  have hgen : ∀ (l : List RegOp) (r : Registry), RegInv r →
      RegInv (l.foldl applyRegOp r) := by
    intro l
    induction l with
    | nil => intro r hr; exact hr
    | cons op l' ih =>
      intro r hr
      rw [List.foldl_cons]
      exact ih _ (regInv_applyOp r op hr)
  exact hgen ops [] ⟨List.nodup_nil, fun e he => absurd he (List.not_mem_nil e)⟩

/-- C2: for every fingerprint, at most one stream exists (registry keys
stay unique), every registered stream has launched the upstream AI call
at most once (exactly once iff its `apiCallPromise` is set), and a
`getOrCreateStream` for a fingerprint that already has a stream returns
it without touching the registry — such requests can only subscribe. -/
theorem C2_single_upstream (ops : List RegOp) :
    (((runRegOps ops).map Prod.fst).Nodup) ∧
    (∀ k e, regGet (runRegOps ops) k = some e →
      e.upstreamCalls ≤ 1 ∧ (e.hasApiCall = true ↔ e.upstreamCalls = 1)) ∧
    (∀ k e, regGet (runRegOps ops) k = some e →
      applyRegOp (runRegOps ops) (RegOp.getOrCreate k) = runRegOps ops) := by
  have hinv := regInv_runRegOps ops
  refine ⟨hinv.1, ?_, ?_⟩
  · intro k e hget
    obtain ⟨p, hp, hpe⟩ := regGet_mem (runRegOps ops) k e hget
    have := hinv.2 p hp
    rw [hpe] at this
    exact this
  · intro k e hget
    unfold applyRegOp getOrCreateStream
    dsimp only
    rw [hget]

/-- C2 (witness): the theorem applied to a concrete interleaving — two
`getOrCreateStream` calls for the same fingerprint followed by a
`startStream` and a `subscribe` leave exactly one upstream call. -/
theorem C2_single_upstream_witness :
    (⟨true, 1, 1⟩ : StreamEntry).upstreamCalls ≤ 1 ∧
    ((⟨true, 1, 1⟩ : StreamEntry).hasApiCall = true ↔
      (⟨true, 1, 1⟩ : StreamEntry).upstreamCalls = 1) :=
  (C2_single_upstream
    [.getOrCreate "k".toList, .getOrCreate "k".toList, .start "k".toList,
     .subscribe "k".toList]).2.1 "k".toList ⟨true, 1, 1⟩ (by decide)

/-! ## Stream fan-out and replay (`src/services/streamManager.ts`:
`subscribe`, `replayChunksWithDelay`, `publishChunk`, `completeStream`,
`errorStream`)

JS is single-threaded: each of the methods below runs as one atomic
synchronous task, and the async replay loop is atomic between two
`await`s.  The transition system below has one step per such task. -/

/-- `ChunkMetadata` from `src/db/sentenceAnalyses.ts`: chunk text plus the
timestamp relative to the stream's creation. -/
structure ChunkMetadata where
  text : Str
  timestamp : Nat
deriving DecidableEq

/-- Where one subscriber's delivery stands: `replaying i` — its replay
task is suspended at one of the `await`s of `replayChunksWithDelay` and
the next chunk it would write is `chunks[i]`; `live` — `isReplaying` is
false and `publishChunk` writes to it directly; `done` — it has received
the terminal frame and its connection was ended. -/
inductive SubMode
  | replaying (i : Nat)
  | live
  | done
deriving DecidableEq

/-- One subscriber: its mode and the chunk texts written to its
connection so far, in order. -/
structure Sub where
  mode : SubMode
  delivered : List Str
deriving DecidableEq

/-- `ActiveStream.status`. -/
inductive StreamStatus
  | active
  | completed
  | errored
deriving DecidableEq

/-- One active stream: its append-only chunk log, its status, and its
subscribers (`fullResponse` is the concatenation of the log). -/
structure StreamState where
  log : List ChunkMetadata
  status : StreamStatus
  subs : List Sub
deriving DecidableEq

/-- `createStream`: a fresh stream — empty log, `active`, no
subscribers. -/
def streamInit : StreamState := ⟨[], .active, []⟩

/-- `publishChunk(cacheKey, chunk)`: append the chunk to the log and
write it to every subscriber that is not replaying.  (A `done`
subscriber's connection is already ended; no `done` subscriber coexists
with an `active` stream, so the write-failure cleanup path is
unreachable.) -/
def publishChunkStep (s : StreamState) (c : ChunkMetadata) : StreamState :=
  { s with
    log := s.log ++ [c]
    subs := s.subs.map (fun sub =>
      if sub.mode = .live then { sub with delivered := sub.delivered ++ [c.text] }
      else sub) }

/-- `completeStream(cacheKey)`: mark the stream completed and send the
`done` frame to every non-replaying subscriber, ending its connection;
replaying subscribers receive it from their replay task instead. -/
def completeStreamStep (s : StreamState) : StreamState :=
  { s with
    status := .completed
    subs := s.subs.map (fun sub =>
      if sub.mode = .live then { sub with mode := .done } else sub) }

/-- `errorStream(cacheKey, err)`: as `completeStream`, with the error
frame. -/
def errorStreamStep (s : StreamState) : StreamState :=
  { s with
    status := .errored
    subs := s.subs.map (fun sub =>
      if sub.mode = .live then { sub with mode := .done } else sub) }

/-- `subscribe(cacheKey, res)`: attach a new subscriber — replaying from
index 0 when chunks have accumulated, otherwise live, or sent the
terminal frame at once when the stream already ended with an empty
log. -/
def subscribeStep (s : StreamState) : StreamState :=
  { s with subs := s.subs ++
      [if s.log ≠ [] then ⟨.replaying 0, []⟩
       else match s.status with
         | .active => ⟨.live, []⟩
         | _ => ⟨.done, []⟩] }

/-- One resumed segment of `replayChunksWithDelay` between two `await`s:
behind the log, it writes exactly one chunk and suspends at the next
delay — unless it has just caught up with a terminal stream, in which
case it clears `isReplaying` and sends the terminal frame in the same
segment; caught up with the log, it either exits replay mode (stream
still active — subsequent chunks arrive via `publishChunk`) or clears
`isReplaying` and sends the terminal frame. -/
def resumeSub (log : List ChunkMetadata) (status : StreamStatus) (sub : Sub) : Sub :=
  match sub.mode with
  | .replaying i =>
    if h : i < log.length then
      let sub1 := { sub with delivered := sub.delivered ++ [(log.get ⟨i, h⟩).text] }
      if i + 1 < log.length then { sub1 with mode := .replaying (i + 1) }
      else if status = .active then { sub1 with mode := .replaying (i + 1) }
      else { sub1 with mode := .done }
    else
      if status = .active then { sub with mode := .live }
      else { sub with mode := .done }
  | _ => sub

/-- The scheduler resumes the replay task of subscriber `j`. -/
def resumeStep (s : StreamState) (j : Nat) : StreamState :=
  { s with subs := s.subs.set j (resumeSub s.log s.status (s.subs.getD j ⟨.live, []⟩)) }

/-- `unsubscribe(cacheKey, id)` (client disconnect): remove subscriber
`j`. -/
def unsubscribeStep (s : StreamState) (j : Nat) : StreamState :=
  { s with subs := s.subs.eraseIdx j }

/-- The interleaving semantics: each constructor is one synchronous JS
task touching this stream.  Chunks are published, and the terminal
transition taken, only while the stream is `active` (the single driver
task publishes all chunks before calling `completeStream` or
`errorStream` exactly once). -/
inductive StreamStep : StreamState → StreamState → Prop
  | publish (s : StreamState) (c : ChunkMetadata) (h : s.status = .active) :
      StreamStep s (publishChunkStep s c)
  | complete (s : StreamState) (h : s.status = .active) :
      StreamStep s (completeStreamStep s)
  | error (s : StreamState) (h : s.status = .active) :
      StreamStep s (errorStreamStep s)
  | subscribe (s : StreamState) : StreamStep s (subscribeStep s)
  | resume (s : StreamState) (j : Nat) : StreamStep s (resumeStep s j)
  | unsubscribe (s : StreamState) (j : Nat) : StreamStep s (unsubscribeStep s j)

/-- States reachable from a fresh stream under any interleaving. -/
def ReachableStream (s : StreamState) : Prop :=
  Relation.ReflTransGen StreamStep streamInit s

/-- Per-subscriber invariant: a replaying subscriber has received exactly
the first `i` chunks of the log, in log order; a live or done subscriber
has received exactly the whole log; a subscriber is live only while the
stream is active and done only once it is terminal. -/
def subInv (s : StreamState) (sub : Sub) : Prop :=
  match sub.mode with
  | .replaying i =>
    sub.delivered = (s.log.take i).map (fun c => c.text) ∧ i ≤ s.log.length
  | .live => sub.delivered = s.log.map (fun c => c.text) ∧ s.status = .active
  | .done => sub.delivered = s.log.map (fun c => c.text) ∧ s.status ≠ .active

/-- The stream invariant: every subscriber satisfies `subInv`. -/
def streamInv (s : StreamState) : Prop := ∀ sub ∈ s.subs, subInv s sub

theorem publishChunkStep_log (s : StreamState) (c : ChunkMetadata) :
    (publishChunkStep s c).log = s.log ++ [c] := rfl

theorem publishChunkStep_status (s : StreamState) (c : ChunkMetadata) :
    (publishChunkStep s c).status = s.status := rfl

theorem completeStreamStep_log (s : StreamState) :
    (completeStreamStep s).log = s.log := rfl

theorem errorStreamStep_log (s : StreamState) :
    (errorStreamStep s).log = s.log := rfl

theorem subscribeStep_log (s : StreamState) : (subscribeStep s).log = s.log := rfl

theorem subscribeStep_status (s : StreamState) :
    (subscribeStep s).status = s.status := rfl

theorem resumeStep_log (s : StreamState) (j : Nat) : (resumeStep s j).log = s.log := rfl

theorem resumeStep_status (s : StreamState) (j : Nat) :
    (resumeStep s j).status = s.status := rfl

theorem unsubscribeStep_log (s : StreamState) (j : Nat) :
    (unsubscribeStep s j).log = s.log := rfl

theorem unsubscribeStep_status (s : StreamState) (j : Nat) :
    (unsubscribeStep s j).status = s.status := rfl

theorem subInv_of_eq {s t : StreamState} (hlog : t.log = s.log)
    (hstat : t.status = s.status) {sub : Sub} (hi : subInv s sub) : subInv t sub := by
  unfold subInv at hi ⊢
  rw [hlog, hstat]
  exact hi

theorem streamInv_step {a b : StreamState} (hstep : StreamStep a b)
    (h : streamInv a) : streamInv b := by
  cases hstep with
  | publish c hact =>
    intro sub' hsub'
    obtain ⟨sub, hsub, rfl⟩ := List.mem_map.mp hsub'
    have hi := h sub hsub
    cases hmode : sub.mode with
    | replaying i =>
      rw [subInv, hmode] at hi
      obtain ⟨hi1, hi2⟩ := hi
      rw [if_neg (fun hx => SubMode.noConfusion hx)]
      rw [subInv, hmode, publishChunkStep_log]
      refine ⟨?_, ?_⟩
      · rw [List.take_append_of_le_length hi2]
        exact hi1
      · simp only [List.length_append, List.length_singleton]
        omega
    | live =>
      rw [subInv, hmode] at hi
      obtain ⟨hi1, -⟩ := hi
      rw [if_pos rfl]
      refine ⟨?_, hact⟩
      show sub.delivered ++ [c.text] = (publishChunkStep a c).log.map (fun x => x.text)
      rw [publishChunkStep_log, List.map_append, hi1]
      rfl
    | done =>
      rw [subInv, hmode] at hi
      obtain ⟨-, hi2⟩ := hi
      exact absurd hact hi2
  | complete hact =>
    intro sub' hsub'
    obtain ⟨sub, hsub, rfl⟩ := List.mem_map.mp hsub'
    have hi := h sub hsub
    cases hmode : sub.mode with
    | replaying i =>
      rw [subInv, hmode] at hi
      rw [if_neg (fun hx => SubMode.noConfusion hx)]
      rw [subInv, hmode, completeStreamStep_log]
      exact hi
    | live =>
      rw [subInv, hmode] at hi
      obtain ⟨hi1, -⟩ := hi
      rw [if_pos rfl]
      exact ⟨hi1, fun hx => StreamStatus.noConfusion hx⟩
    | done =>
      rw [subInv, hmode] at hi
      obtain ⟨-, hi2⟩ := hi
      exact absurd hact hi2
  | error hact =>
    intro sub' hsub'
    obtain ⟨sub, hsub, rfl⟩ := List.mem_map.mp hsub'
    have hi := h sub hsub
    cases hmode : sub.mode with
    | replaying i =>
      rw [subInv, hmode] at hi
      rw [if_neg (fun hx => SubMode.noConfusion hx)]
      rw [subInv, hmode, errorStreamStep_log]
      exact hi
    | live =>
      rw [subInv, hmode] at hi
      obtain ⟨hi1, -⟩ := hi
      rw [if_pos rfl]
      exact ⟨hi1, fun hx => StreamStatus.noConfusion hx⟩
    | done =>
      rw [subInv, hmode] at hi
      obtain ⟨-, hi2⟩ := hi
      exact absurd hact hi2
  | subscribe =>
    intro sub' hsub'
    rcases List.mem_append.mp hsub' with hold | hnew
    · exact subInv_of_eq (subscribeStep_log a) (subscribeStep_status a) (h sub' hold)
    · rcases List.mem_singleton.mp hnew with rfl
      by_cases hlog : a.log = []
      · rw [if_neg (fun hx => hx hlog)]
        cases hstat : a.status with
        | active =>
          rw [subInv]
          refine ⟨?_, ?_⟩
          · show ([] : List Str) = (subscribeStep a).log.map (fun x => x.text)
            rw [subscribeStep_log, hlog]
            rfl
          · show (subscribeStep a).status = .active
            rw [subscribeStep_status, hstat]
        | completed =>
          rw [subInv]
          refine ⟨?_, ?_⟩
          · show ([] : List Str) = (subscribeStep a).log.map (fun x => x.text)
            rw [subscribeStep_log, hlog]
            rfl
          · show (subscribeStep a).status ≠ .active
            rw [subscribeStep_status, hstat]
            exact fun hx => StreamStatus.noConfusion hx
        | errored =>
          rw [subInv]
          refine ⟨?_, ?_⟩
          · show ([] : List Str) = (subscribeStep a).log.map (fun x => x.text)
            rw [subscribeStep_log, hlog]
            rfl
          · show (subscribeStep a).status ≠ .active
            rw [subscribeStep_status, hstat]
            exact fun hx => StreamStatus.noConfusion hx
      · rw [if_pos hlog]
        rw [subInv]
        exact ⟨rfl, Nat.zero_le _⟩
  | resume j =>
    intro sub' hsub'
    by_cases hj : j < a.subs.length
    · rcases List.mem_or_eq_of_mem_set hsub' with hold | hnew
      · exact subInv_of_eq (resumeStep_log a j) (resumeStep_status a j) (h sub' hold)
      · subst hnew
        rw [List.getD_eq_getElem a.subs ⟨.live, []⟩ hj]
        have hi := h a.subs[j] (List.getElem_mem hj)
        cases hmode : a.subs[j].mode with
        | live =>
          unfold resumeSub
          rw [hmode]
          exact subInv_of_eq (resumeStep_log a j) (resumeStep_status a j)
            (by rw [subInv, hmode] at hi ⊢; exact hi)
        | done =>
          unfold resumeSub
          rw [hmode]
          exact subInv_of_eq (resumeStep_log a j) (resumeStep_status a j)
            (by rw [subInv, hmode] at hi ⊢; exact hi)
        | replaying i =>
          rw [subInv, hmode] at hi
          obtain ⟨hi1, hi2⟩ := hi
          unfold resumeSub
          rw [hmode]
          dsimp only
          by_cases hilen : i < a.log.length
          · rw [dif_pos hilen]
            have hdeliv : a.subs[j].delivered ++ [(a.log.get ⟨i, hilen⟩).text] =
                (a.log.take (i + 1)).map (fun x => x.text) := by
              rw [hi1, List.take_succ, List.getElem?_eq_getElem hilen,
                List.map_append]
              rfl
            by_cases hnext : i + 1 < a.log.length
            · rw [if_pos hnext]
              rw [subInv]
              refine ⟨?_, ?_⟩
              · show a.subs[j].delivered ++ [(a.log.get ⟨i, hilen⟩).text] =
                  ((resumeStep a j).log.take (i + 1)).map (fun x => x.text)
                rw [resumeStep_log]
                exact hdeliv
              · show i + 1 ≤ (resumeStep a j).log.length
                rw [resumeStep_log]
                omega
            · rw [if_neg hnext]
              have hieq : i + 1 = a.log.length := by omega
              by_cases hact : a.status = .active
              · rw [if_pos hact]
                rw [subInv]
                refine ⟨?_, ?_⟩
                · show a.subs[j].delivered ++ [(a.log.get ⟨i, hilen⟩).text] =
                    ((resumeStep a j).log.take (i + 1)).map (fun x => x.text)
                  rw [resumeStep_log]
                  exact hdeliv
                · show i + 1 ≤ (resumeStep a j).log.length
                  rw [resumeStep_log]
                  omega
              · rw [if_neg hact]
                rw [subInv]
                refine ⟨?_, ?_⟩
                · show a.subs[j].delivered ++ [(a.log.get ⟨i, hilen⟩).text] =
                    (resumeStep a j).log.map (fun x => x.text)
                  rw [resumeStep_log, hdeliv, hieq, List.take_length]
                · show (resumeStep a j).status ≠ .active
                  rw [resumeStep_status]
                  exact hact
          · rw [dif_neg hilen]
            have hieq : i = a.log.length := by omega
            have hall : a.subs[j].delivered = a.log.map (fun x => x.text) := by
              rw [hi1, hieq, List.take_length]
            by_cases hact : a.status = .active
            · rw [if_pos hact]
              rw [subInv]
              refine ⟨?_, ?_⟩
              · show a.subs[j].delivered = (resumeStep a j).log.map (fun x => x.text)
                rw [resumeStep_log]
                exact hall
              · show (resumeStep a j).status = .active
                rw [resumeStep_status]
                exact hact
            · rw [if_neg hact]
              rw [subInv]
              refine ⟨?_, ?_⟩
              · show a.subs[j].delivered = (resumeStep a j).log.map (fun x => x.text)
                rw [resumeStep_log]
                exact hall
              · show (resumeStep a j).status ≠ .active
                rw [resumeStep_status]
                exact hact
    · have hset : a.subs.set j (resumeSub a.log a.status (a.subs.getD j ⟨.live, []⟩)) =
          a.subs := List.set_eq_of_length_le (Nat.le_of_not_lt hj)
      have hsub'' : sub' ∈ a.subs := by
        have : (resumeStep a j).subs = a.subs := hset
        rw [show (resumeStep a j).subs =
          a.subs.set j (resumeSub a.log a.status (a.subs.getD j ⟨.live, []⟩)) from rfl,
          hset] at hsub'
        exact hsub'
      exact subInv_of_eq (resumeStep_log a j) (resumeStep_status a j) (h sub' hsub'')
  | unsubscribe j =>
    intro sub' hsub'
    exact subInv_of_eq (unsubscribeStep_log a j) (unsubscribeStep_status a j)
      (h sub' (List.mem_of_mem_eraseIdx hsub'))

theorem streamInv_reachable (s : StreamState) (h : ReachableStream s) :
    streamInv s := by
  unfold ReachableStream at h
  induction h with
  | refl => exact fun sub hsub => absurd hsub (List.not_mem_nil sub)
  | tail hab hbc ih => exact streamInv_step hbc ih

/-- C1: in every reachable state of a stream, every subscriber's
connection has been written exactly a prefix of the chunk log, in log
order — so no chunk is ever skipped, duplicated or reordered, across the
transition from paced replay to live delivery and for subscribers that
join while chunks are still arriving — and every subscriber that has
received the terminal frame has received the entire log exactly once. -/
theorem C1_stream_delivery (s : StreamState) (h : ReachableStream s) :
    ∀ sub ∈ s.subs,
      (∃ n, n ≤ s.log.length ∧
        sub.delivered = (s.log.take n).map (fun c => c.text)) ∧
      (sub.mode = .done → sub.delivered = s.log.map (fun c => c.text)) := by
  intro sub hsub
  have hi := streamInv_reachable s h sub hsub
  cases hmode : sub.mode with
  | replaying i =>
    rw [subInv, hmode] at hi
    refine ⟨⟨i, hi.2, hi.1⟩, ?_⟩
    intro hx
    exact SubMode.noConfusion hx
  | live =>
    rw [subInv, hmode] at hi
    refine ⟨⟨s.log.length, le_rfl, ?_⟩, ?_⟩
    · rw [List.take_length]
      exact hi.1
    · intro hx
      exact SubMode.noConfusion hx
  | done =>
    rw [subInv, hmode] at hi
    refine ⟨⟨s.log.length, le_rfl, ?_⟩, fun _ => hi.1⟩
    rw [List.take_length]
    exact hi.1

/-- C1 (witness): the theorem applied to a concrete reachable execution —
publish `"a"`, a late subscriber joins, publish `"b"` during its replay,
the replay delivers both chunks, the stream completes, and the replay
task hands over the terminal frame; the subscriber ends `done` having
received exactly the log. -/
theorem C1_stream_delivery_witness :
    (⟨SubMode.done, ["a".toList, "b".toList]⟩ : Sub).delivered =
      (resumeStep (completeStreamStep (resumeStep (resumeStep (publishChunkStep
        (subscribeStep (publishChunkStep streamInit ⟨"a".toList, 5⟩))
        ⟨"b".toList, 9⟩) 0) 0)) 0).log.map (fun c => c.text) := by
  have r1 : ReachableStream (publishChunkStep streamInit ⟨"a".toList, 5⟩) :=
    Relation.ReflTransGen.tail Relation.ReflTransGen.refl
      (StreamStep.publish _ _ rfl)
  have r2 := Relation.ReflTransGen.tail r1 (StreamStep.subscribe _)
  have r3 := Relation.ReflTransGen.tail r2 (StreamStep.publish _ ⟨"b".toList, 9⟩ rfl)
  have r4 := Relation.ReflTransGen.tail r3 (StreamStep.resume _ 0)
  have r5 := Relation.ReflTransGen.tail r4 (StreamStep.resume _ 0)
  have r6 := Relation.ReflTransGen.tail r5 (StreamStep.complete _ rfl)
  have r7 := Relation.ReflTransGen.tail r6 (StreamStep.resume _ 0)
  exact (C1_stream_delivery _ r7 ⟨SubMode.done, ["a".toList, "b".toList]⟩
    (by decide)).2 rfl

end TW
